import Mathlib

/-!
Verification of the brook storage engine (per-partition segmented log,
segment record log, sparse index, mmap reader, async writer).

The Go sources are shallowly embedded: files are `List Nat` of bytes
(each byte `< 256` by construction of the encoders), machine integers are
`Nat` with explicit `% 2^32` / `% 2^64` where the Go code truncates
(`uint32(..)` casts, big-endian byte extraction), and fallible operations
return `Except`.  Buffered writers are modelled as immediately visible:
every read path in the source (`FindNearest`, `LastEntry`, `scanFrom`)
flushes the writer before reading, so the flushed view is the one every
modelled operation observes.  Wall-clock timestamps are threaded as
explicit `Nat` nanosecond arguments.
-/

namespace Brook

/-! ## Byte-level primitives (encoding/binary, big-endian) -/

/-- `binary.BigEndian.PutUint32`: the four big-endian base-256 digits of `v`. -/
def putUint32 (v : Nat) : List Nat :=
  [v / 2 ^ 24 % 256, v / 2 ^ 16 % 256, v / 2 ^ 8 % 256, v % 256]

/-- `binary.BigEndian.Uint32` on a 4-byte slice. -/
def getUint32 (b : List Nat) : Nat :=
  b.getD 0 0 * 2 ^ 24 + b.getD 1 0 * 2 ^ 16 + b.getD 2 0 * 2 ^ 8 + b.getD 3 0

/-- `binary.BigEndian.PutUint64`: the eight big-endian base-256 digits of `v`. -/
def putUint64 (v : Nat) : List Nat :=
  [v / 2 ^ 56 % 256, v / 2 ^ 48 % 256, v / 2 ^ 40 % 256, v / 2 ^ 32 % 256,
   v / 2 ^ 24 % 256, v / 2 ^ 16 % 256, v / 2 ^ 8 % 256, v % 256]

/-- `binary.BigEndian.Uint64` on an 8-byte slice. -/
def getUint64 (b : List Nat) : Nat :=
  b.getD 0 0 * 2 ^ 56 + b.getD 1 0 * 2 ^ 48 + b.getD 2 0 * 2 ^ 40 + b.getD 3 0 * 2 ^ 32 +
  b.getD 4 0 * 2 ^ 24 + b.getD 5 0 * 2 ^ 16 + b.getD 6 0 * 2 ^ 8 + b.getD 7 0

theorem getUint32_putUint32 (v : Nat) : getUint32 (putUint32 v) = v % 2 ^ 32 := by
  simp only [putUint32, getUint32, List.getD_cons_zero, List.getD_cons_succ]
  omega

theorem getUint64_putUint64 (v : Nat) : getUint64 (putUint64 v) = v % 2 ^ 64 := by
  simp only [putUint64, getUint64, List.getD_cons_zero, List.getD_cons_succ]
  omega

@[simp] theorem putUint32_length (v : Nat) : (putUint32 v).length = 4 := rfl

@[simp] theorem putUint64_length (v : Nat) : (putUint64 v).length = 8 := rfl

/-- `putUint32` only sees the low 32 bits, exactly as the Go `uint32` cast does. -/
theorem putUint32_mod (v : Nat) : putUint32 (v % 2 ^ 32) = putUint32 v := by
  simp only [putUint32, List.cons.injEq, and_true]
  exact ⟨by omega, by omega, by omega, by omega⟩

/-! ## Record codec (`RecordHeader.Encode` / `Decode`) -/

/-- `HeaderSize = 24`: Offset(8) + Size(8) + Timestamp(8). -/
def HeaderSize : Nat := 24

structure RecordHeader where
  LogicalOffset : Nat
  PayloadSize : Nat
  Timestamp : Nat
deriving DecidableEq, Repr

structure Record where
  Header : RecordHeader
  Payload : List Nat
deriving DecidableEq, Repr

/-- `RecordHeader.Encode`: three big-endian u64 fields into a 24-byte slot. -/
def RecordHeader.encode (h : RecordHeader) : List Nat :=
  putUint64 h.LogicalOffset ++ putUint64 h.PayloadSize ++ putUint64 h.Timestamp

/-- `RecordHeader.Decode`: reads `src[0:8]`, `src[8:16]`, `src[16:24]`. -/
def RecordHeader.decode (src : List Nat) : RecordHeader :=
  { LogicalOffset := getUint64 (src.take 8)
    PayloadSize := getUint64 ((src.drop 8).take 8)
    Timestamp := getUint64 ((src.drop 16).take 8) }

@[simp] theorem RecordHeader.encode_length (h : RecordHeader) : h.encode.length = 24 := by
  simp [RecordHeader.encode]

theorem RecordHeader.decode_encode (h : RecordHeader) :
    RecordHeader.decode h.encode =
      ⟨h.LogicalOffset % 2 ^ 64, h.PayloadSize % 2 ^ 64, h.Timestamp % 2 ^ 64⟩ := by
  have e1 : h.encode.take 8 = putUint64 h.LogicalOffset := by
    rw [RecordHeader.encode, List.append_assoc]
    exact List.take_left' (by simp)
  have hd8 : h.encode.drop 8 = putUint64 h.PayloadSize ++ putUint64 h.Timestamp := by
    rw [RecordHeader.encode, List.append_assoc]
    exact List.drop_left' (by simp)
  have e2 : (h.encode.drop 8).take 8 = putUint64 h.PayloadSize := by
    rw [hd8]
    exact List.take_left' (by simp)
  have e3 : (h.encode.drop 16).take 8 = putUint64 h.Timestamp := by
    have hd : h.encode.drop 16 = putUint64 h.Timestamp := by
      rw [RecordHeader.encode]
      exact List.drop_left' (by simp)
    rw [hd]
    exact List.take_of_length_le (by simp)
  simp [RecordHeader.decode, e1, e2, e3, getUint64_putUint64]

/-! ## Index codec (`IndexEntry.Marshal` / `Unmarshal`) -/

def entryWidth : Nat := 8

structure IndexEntry where
  LogicalOff : Nat
  MemoryPos : Nat
deriving DecidableEq, Repr

/-- `IndexEntry.Marshal`: `dst[0:4] = LogicalOff`, `dst[4:8] = MemoryPos`, big-endian. -/
def IndexEntry.marshal (e : IndexEntry) : List Nat :=
  putUint32 e.LogicalOff ++ putUint32 e.MemoryPos

/-- `IndexEntry.Unmarshal`: reads `src[0:4]` and `src[4:8]`. -/
def IndexEntry.unmarshal (src : List Nat) : IndexEntry :=
  { LogicalOff := getUint32 (src.take 4), MemoryPos := getUint32 ((src.drop 4).take 4) }

@[simp] theorem IndexEntry.marshal_length (e : IndexEntry) : e.marshal.length = 8 := by
  simp [IndexEntry.marshal]

theorem IndexEntry.unmarshal_marshal (e : IndexEntry) :
    IndexEntry.unmarshal e.marshal = ⟨e.LogicalOff % 2 ^ 32, e.MemoryPos % 2 ^ 32⟩ := by
  have e1 : e.marshal.take 4 = putUint32 e.LogicalOff := by
    rw [IndexEntry.marshal]
    exact List.take_left' (by simp)
  have e2 : (e.marshal.drop 4).take 4 = putUint32 e.MemoryPos := by
    have hd : e.marshal.drop 4 = putUint32 e.MemoryPos := by
      rw [IndexEntry.marshal]
      exact List.drop_left' (by simp)
    rw [hd]
    exact List.take_of_length_le (by simp)
  simp [IndexEntry.unmarshal, e1, e2, getUint32_putUint32]

end Brook

/-! ## C9 -/

/-- C9: for every record header `h` whose three u64 fields are in range,
encoding into the 24-byte big-endian slot and decoding back yields `h`;
and for every index entry `e` with u32 fields in range, marshalling into
the 8-byte big-endian slot and unmarshalling back yields `e`. -/
theorem C9_codec_roundtrip (h : Brook.RecordHeader) (e : Brook.IndexEntry)
    (h1 : h.LogicalOffset < 2 ^ 64) (h2 : h.PayloadSize < 2 ^ 64) (h3 : h.Timestamp < 2 ^ 64)
    (h4 : e.LogicalOff < 2 ^ 32) (h5 : e.MemoryPos < 2 ^ 32) :
    Brook.RecordHeader.decode h.encode = h ∧ Brook.IndexEntry.unmarshal e.marshal = e := by
  constructor
  · rw [Brook.RecordHeader.decode_encode]
    cases h with
    | mk a b c => simp_all [Nat.mod_eq_of_lt]
  · rw [Brook.IndexEntry.unmarshal_marshal]
    cases e with
    | mk a b => simp_all [Nat.mod_eq_of_lt]

/-- Witness for C9 at a concrete header and entry. -/
theorem C9_codec_roundtrip_witness :
    Brook.RecordHeader.decode (Brook.RecordHeader.encode ⟨10001, 7, 123456789⟩) = ⟨10001, 7, 123456789⟩ ∧
    Brook.IndexEntry.unmarshal (Brook.IndexEntry.marshal ⟨500, 12000⟩) = ⟨500, 12000⟩ :=
  C9_codec_roundtrip ⟨10001, 7, 123456789⟩ ⟨500, 12000⟩
    (by decide) (by decide) (by decide) (by decide) (by decide)

namespace Brook

/-! ## Mmap reader (`MmapStore`) -/

inductive MmapErr where
  | emptyStore
  | outOfBounds
deriving DecidableEq, Repr

/-- `MmapStore`: `data = none` models the Go `nil` slice (empty file, never
mapped, or lost mapping); `data = some d` models a live mapping of `d`. -/
structure MmapStore where
  data : Option (List Nat)
deriving DecidableEq, Repr

/-- `MmapStore.Size`: `len(m.data)` (a `nil` slice has length 0). -/
def MmapStore.Size (m : MmapStore) : Nat :=
  match m.data with
  | none => 0
  | some d => d.length

/-- `MmapStore.ReadAt`: fails on a `nil` mapping, fails when
`offset+length > len(data)`, otherwise returns `data[offset : offset+length]`. -/
def MmapStore.ReadAt (m : MmapStore) (offset length : Nat) : Except MmapErr (List Nat) :=
  match m.data with
  | none => .error .emptyStore
  | some d =>
    if offset + length > d.length then .error .outOfBounds
    else .ok ((d.drop offset).take length)

/-! ## `sort.Search` (Go standard library binary search) -/

/-- The loop of Go's `sort.Search`:
`i, j := lo, hi; for i < j { h := (i+j)/2; if !f(h) { i = h+1 } else { j = h } }; return i`. -/
def goSearch (f : Nat → Bool) (i j : Nat) : Nat :=
  if h : i < j then
    let m := (i + j) / 2
    if f m then goSearch f i m else goSearch f (m + 1) j
  else i
termination_by j - i
decreasing_by all_goals omega

/-- `sort.Search(n, f)`. -/
def sortSearch (n : Nat) (f : Nat → Bool) : Nat := goSearch f 0 n

theorem goSearch_spec (f : Nat → Bool) (n : Nat)
    (hmono : ∀ a b, a ≤ b → b < n → f a = true → f b = true) :
    ∀ fuel i j, j - i ≤ fuel → i ≤ j → j ≤ n →
      (∀ k, k < i → f k = false) →
      (∀ k, j ≤ k → k < n → f k = true) →
      (∀ k, k < goSearch f i j → f k = false) ∧ goSearch f i j ≤ n ∧
        (goSearch f i j < n → f (goSearch f i j) = true) := by
  intro fuel
  induction fuel with
  | zero =>
    intro i j hfuel hij hjn h1 h2
    have hji : i = j := by omega
    rw [goSearch]
    simp only [show ¬ i < j by omega, dif_neg, not_false_iff]
    exact ⟨h1, by omega, fun hin => h2 i (by omega) hin⟩
  | succ fuel ih =>
    intro i j hfuel hij hjn h1 h2
    by_cases hlt : i < j
    · rw [goSearch]
      simp only [dif_pos hlt]
      by_cases hfm : f ((i + j) / 2) = true
      · simp only [hfm, if_pos]
        exact ih i ((i + j) / 2) (by omega) (by omega) (by omega) h1
          (fun k hk hkn => hmono _ _ hk hkn hfm)
      · simp only [hfm, if_neg, Bool.not_eq_true]
        refine ih ((i + j) / 2 + 1) j (by omega) (by omega) hjn ?_ h2
        intro k hk
        by_cases hki : k < i
        · exact h1 k hki
        · cases hfk : f k with
          | false => rfl
          | true =>
            exfalso
            have : f ((i + j) / 2) = true := hmono k _ (by omega) (by omega) hfk
            simp [this] at hfm
    · rw [goSearch]
      simp only [dif_neg hlt]
      have hji : i = j := by omega
      exact ⟨h1, by omega, fun hin => h2 i (by omega) hin⟩

/-- Characterization of `sort.Search` for a monotone predicate: the result is
the least index at which `f` holds, or `n` when there is none. -/
theorem sortSearch_least (n : Nat) (f : Nat → Bool)
    (hmono : ∀ a b, a ≤ b → b < n → f a = true → f b = true) :
    (∀ k, k < sortSearch n f → f k = false) ∧ sortSearch n f ≤ n ∧
      (sortSearch n f < n → f (sortSearch n f) = true) :=
  goSearch_spec f n hmono n 0 n (by omega) (by omega) (by omega)
    (fun k hk => absurd hk (Nat.not_lt_zero k)) (fun k hk hkn => absurd hkn (by omega))

/-- There is only one number satisfying the least-index characterization. -/
theorem least_unique (n : Nat) (f : Nat → Bool) (r1 r2 : Nat)
    (c1 : (∀ k, k < r1 → f k = false) ∧ r1 ≤ n ∧ (r1 < n → f r1 = true))
    (c2 : (∀ k, k < r2 → f k = false) ∧ r2 ≤ n ∧ (r2 < n → f r2 = true)) : r1 = r2 := by
  rcases c1 with ⟨a1, b1, d1⟩
  rcases c2 with ⟨a2, b2, d2⟩
  by_contra hne
  rcases Nat.lt_or_ge r1 r2 with h | h
  · have := d1 (by omega)
    have := a2 r1 h
    simp_all
  · have hlt : r2 < r1 := by omega
    have := d2 (by omega)
    have := a1 r2 hlt
    simp_all

end Brook

/-! ## C8 -/

/-- C8: `MmapStore.ReadAt(offset, length)` returns an error exactly when there
is no current mapping or `offset + length` exceeds the mapped length; on
success it returns precisely the `length` bytes of the mapping starting at
`offset`, which lie entirely inside the mapped region. -/
theorem C8_mmap_readat (m : Brook.MmapStore) (offset length : Nat) :
    ((∃ e, m.ReadAt offset length = .error e) ↔
      m.data = none ∨ offset + length > m.Size) ∧
    (∀ bs, m.ReadAt offset length = .ok bs →
      ∃ d, m.data = some d ∧ bs = (d.drop offset).take length ∧
        bs.length = length ∧ offset + length ≤ d.length) := by
  cases m with
  | mk data =>
    cases data with
    | none =>
      constructor
      · simp [Brook.MmapStore.ReadAt]
      · intro bs hbs
        simp [Brook.MmapStore.ReadAt] at hbs
    | some d =>
      constructor
      · by_cases hb : offset + length > d.length
        · simp [Brook.MmapStore.ReadAt, Brook.MmapStore.Size, hb]
        · simp [Brook.MmapStore.ReadAt, Brook.MmapStore.Size, hb]
      · intro bs hbs
        by_cases hb : offset + length > d.length
        · simp [Brook.MmapStore.ReadAt, hb] at hbs
        · simp [Brook.MmapStore.ReadAt, hb] at hbs
          refine ⟨d, rfl, hbs.symm, ?_, by omega⟩
          subst hbs
          simp only [List.length_take, List.length_drop]
          omega

/-- Witness for C8 on a concrete mapped store and in-bounds read. -/
theorem C8_mmap_readat_witness :
    ∃ d, (Brook.MmapStore.mk (some [1, 2, 3])).data = some d ∧
      ([2, 3] : List Nat) = (d.drop 1).take 2 ∧
      ([2, 3] : List Nat).length = 2 ∧ 1 + 2 ≤ d.length :=
  (C8_mmap_readat ⟨some [1, 2, 3]⟩ 1 2).2 [2, 3] (by rfl)

namespace Brook

/-! ## Sparse index, byte level

The index file is a byte list.  The buffered index writer is modelled as
immediately flushed (`FindNearest` and `LastEntry` both flush the writer and
`Sync()` the mmap reader under the exclusive lock before reading, so the
flushed file is exactly what the search sees).  After that sync the mmap data
is the whole file when the file is non-empty and `nil` when it is empty. -/

/-- The mmap view of the index file right after `writer.Flush(); reader.Sync()`:
`nil` for an empty file, otherwise the full file contents. -/
def mmapOf (bytes : List Nat) : MmapStore :=
  ⟨if bytes.length = 0 then none else some bytes⟩

/-- `NewIndex` tail truncation: if the file size is not a multiple of
`entryWidth = 8`, truncate the trailing remainder. -/
def NewIndexFile (bytes : List Nat) : List Nat :=
  bytes.take (bytes.length - bytes.length % entryWidth)

/-- The sequence of entries stored in an index file, decoded 8 bytes at a time. -/
def indexEntriesOf (bytes : List Nat) : List IndexEntry :=
  if _h : 8 ≤ bytes.length then
    IndexEntry.unmarshal (bytes.take 8) :: indexEntriesOf (bytes.drop 8)
  else []
termination_by bytes.length
decreasing_by simp only [List.length_drop]; omega

/-- `Index.readEntryInternal`: `ReadAt(idx*entryWidth, entryWidth)` on the mmap,
then `Unmarshal`. -/
def Index.readEntryInternal (bytes : List Nat) (idx : Nat) : Except MmapErr IndexEntry :=
  match (mmapOf bytes).ReadAt (idx * entryWidth) entryWidth with
  | .error e => .error e
  | .ok chunk => .ok (IndexEntry.unmarshal chunk)

/-- `Index.FindNearest`: strict upper-bound binary search (`sort.Search`) over
`totalEntries = Size/entryWidth`, returning the sentinel on `idx == 0` and
`entry[idx-1]` otherwise.  The Go closure records a sticky read error; the
search only probes `k < totalEntries`, where `readEntryInternal` always
succeeds (proved below), so the error branch maps a failed probe to the Go
zero-value comparison `0 > target = false`. -/
def Index.FindNearest (bytes : List Nat) (targetOffset : Nat) : Except MmapErr IndexEntry :=
  let totalEntries := (mmapOf bytes).Size / entryWidth
  let idx := sortSearch totalEntries fun k =>
    match Index.readEntryInternal bytes k with
    | .ok e => decide (targetOffset < e.LogicalOff)
    | .error _ => false
  if idx = 0 then .ok ⟨0, 0⟩
  else Index.readEntryInternal bytes (idx - 1)

/-- `Index.LastEntry`: sentinel on an empty (hence unmapped) file, otherwise
the entry at index `Size/entryWidth - 1`. -/
def Index.LastEntry (bytes : List Nat) : Except MmapErr IndexEntry :=
  let size := (mmapOf bytes).Size
  if size = 0 then .ok ⟨0, 0⟩
  else Index.readEntryInternal bytes (size / entryWidth - 1)

theorem MmapStore.ReadAt_some (d : List Nat) (o l : Nat) :
    (MmapStore.mk (some d)).ReadAt o l =
      if o + l > d.length then .error .outOfBounds else .ok ((d.drop o).take l) := rfl

/-- In-bounds probes always succeed and return the decoded 8-byte chunk. -/
theorem readEntryInternal_ok (bytes : List Nat) (k : Nat)
    (hk : k < bytes.length / 8) :
    Index.readEntryInternal bytes k =
      .ok (IndexEntry.unmarshal ((bytes.drop (k * 8)).take 8)) := by
  have h1 : bytes.length / 8 * 8 ≤ bytes.length := Nat.div_mul_le_self _ 8
  have h2 : (k + 1) * 8 ≤ bytes.length / 8 * 8 := Nat.mul_le_mul_right 8 (by omega)
  have hlen : k * 8 + 8 ≤ bytes.length := by omega
  have hne : bytes.length ≠ 0 := by omega
  have hm : mmapOf bytes = ⟨some bytes⟩ := by simp [mmapOf, hne]
  rw [Index.readEntryInternal, hm, MmapStore.ReadAt_some]
  rw [if_neg (by simp only [entryWidth]; omega)]
  rfl

theorem indexEntriesOf_length (bytes : List Nat) :
    (indexEntriesOf bytes).length = bytes.length / 8 := by
  induction bytes using indexEntriesOf.induct with
  | case1 bytes h ih =>
    rw [indexEntriesOf, dif_pos h]
    simp only [List.length_cons, ih, List.length_drop]
    omega
  | case2 bytes h =>
    rw [indexEntriesOf, dif_neg h]
    simp only [List.length_nil]
    omega

theorem indexEntriesOf_getD (bytes : List Nat) :
    ∀ k, k < bytes.length / 8 →
      (indexEntriesOf bytes).getD k ⟨0, 0⟩ =
        IndexEntry.unmarshal ((bytes.drop (k * 8)).take 8) := by
  induction bytes using indexEntriesOf.induct with
  | case1 bytes h ih =>
    intro k hk
    rw [indexEntriesOf, dif_pos h]
    cases k with
    | zero => simp
    | succ k =>
      simp only [List.getD_cons_succ]
      rw [ih k (by simp only [List.length_drop]; omega)]
      congr 1
      rw [List.drop_drop]
      congr 2
      omega
  | case2 bytes h =>
    intro k hk
    omega

/-- Concatenating marshalled entries and decoding them back is the identity,
provided every field fits in a `u32`. -/
theorem indexEntriesOf_flatten (entries : List IndexEntry)
    (hb : ∀ e ∈ entries, e.LogicalOff < 2 ^ 32 ∧ e.MemoryPos < 2 ^ 32) :
    indexEntriesOf (List.flatten (entries.map IndexEntry.marshal)) = entries := by
  induction entries with
  | nil => rw [indexEntriesOf]; simp
  | cons e rest ih =>
    simp only [List.map_cons, List.flatten_cons]
    rw [indexEntriesOf, dif_pos (by simp)]
    have ht : (e.marshal ++ (rest.map IndexEntry.marshal).flatten).take 8 = e.marshal :=
      List.take_left' (by simp)
    have hd : (e.marshal ++ (rest.map IndexEntry.marshal).flatten).drop 8 =
        (rest.map IndexEntry.marshal).flatten :=
      List.drop_left' (by simp)
    rw [ht, hd, ih (fun x hx => hb x (List.mem_cons_of_mem e hx))]
    rw [IndexEntry.unmarshal_marshal]
    have h1 := (hb e (List.mem_cons_self e rest)).1
    have h2 := (hb e (List.mem_cons_self e rest)).2
    simp only [List.cons.injEq]
    exact ⟨by cases e; simp_all [Nat.mod_eq_of_lt], trivial⟩

theorem flatten_marshal_length (entries : List IndexEntry) :
    (List.flatten (entries.map IndexEntry.marshal)).length = 8 * entries.length := by
  induction entries with
  | nil => simp
  | cons e rest ih =>
    simp [ih]
    omega

/-- Slicing 8 bytes at position `k*8` out of concatenated marshalled entries
yields the `k`-th entry's bytes. -/
theorem flatten_marshal_slice (entries : List IndexEntry) :
    ∀ k, k < entries.length →
      ((List.flatten (entries.map IndexEntry.marshal)).drop (k * 8)).take 8 =
        (entries.getD k ⟨0, 0⟩).marshal := by
  induction entries with
  | nil => intro k hk; simp at hk
  | cons e rest ih =>
    intro k hk
    simp only [List.map_cons, List.flatten_cons]
    cases k with
    | zero =>
      simp only [Nat.zero_mul, List.drop_zero, List.getD_cons_zero]
      exact List.take_left' (by simp)
    | succ k =>
      have hd : (e.marshal ++ (rest.map IndexEntry.marshal).flatten).drop ((k + 1) * 8) =
          ((rest.map IndexEntry.marshal).flatten).drop (k * 8) := by
        have h1 : (e.marshal ++ (rest.map IndexEntry.marshal).flatten).drop 8 =
            (rest.map IndexEntry.marshal).flatten := List.drop_left' (by simp)
        rw [show (k + 1) * 8 = 8 + k * 8 by omega, ← List.drop_drop, h1]
      rw [hd, List.getD_cons_succ]
      exact ih k (by simpa using hk)

end Brook

namespace Brook

/-! ## Least-index characterization of the index search -/

theorem sortSearch_zero (f : Nat → Bool) : sortSearch 0 f = 0 := by
  rw [sortSearch, goSearch]
  simp

/-- Modelled from the claim's words: the smallest index `i` such that
`entry[i].logical_off > target` (`i = n` when no such entry exists), computed
by a first scan. -/
def upperIdx (t : Nat) : List IndexEntry → Nat
  | [] => 0
  | e :: rest => if t < e.LogicalOff then 0 else upperIdx t rest + 1

/-- Modelled from the claim's words: `FindNearest` should return the sentinel
`{0,0}` when `i == 0` and `entry[i-1]` otherwise, `i` being `upperIdx`. -/
def findNearestSpec (entries : List IndexEntry) (t : Nat) : IndexEntry :=
  if upperIdx t entries = 0 then ⟨0, 0⟩
  else entries.getD (upperIdx t entries - 1) ⟨0, 0⟩

theorem upperIdx_le (t : Nat) : ∀ l : List IndexEntry, upperIdx t l ≤ l.length := by
  intro l
  induction l with
  | nil => simp [upperIdx]
  | cons e rest ih =>
    rw [upperIdx]
    split
    · omega
    · simp only [List.length_cons]; omega

theorem upperIdx_lt (t : Nat) : ∀ (l : List IndexEntry) (k : Nat), k < upperIdx t l →
    (l.getD k ⟨0, 0⟩).LogicalOff ≤ t := by
  intro l
  induction l with
  | nil => intro k hk; simp [upperIdx] at hk
  | cons e rest ih =>
    intro k hk
    rw [upperIdx] at hk
    split at hk
    · omega
    · cases k with
      | zero => simp only [List.getD_cons_zero]; omega
      | succ k => simp only [List.getD_cons_succ]; exact ih k (by omega)

theorem upperIdx_boundary (t : Nat) : ∀ l : List IndexEntry, upperIdx t l < l.length →
    t < (l.getD (upperIdx t l) ⟨0, 0⟩).LogicalOff := by
  intro l
  induction l with
  | nil => intro hk; simp [upperIdx] at hk
  | cons e rest ih =>
    intro hk
    rw [upperIdx]
    split
    · simpa
    · rw [upperIdx] at hk
      split at hk
      · omega
      · simp only [List.getD_cons_succ]
        exact ih (by simp only [List.length_cons] at hk; omega)

theorem getD_eq_get (l : List IndexEntry) (k : Nat) (h : k < l.length) :
    l.getD k ⟨0, 0⟩ = l.get ⟨k, h⟩ := by
  simp [List.getD_eq_getElem?_getD, List.getElem?_eq_getElem h]

theorem getD_mem (l : List IndexEntry) (k : Nat) (h : k < l.length) :
    l.getD k ⟨0, 0⟩ ∈ l := by
  rw [getD_eq_get l k h]
  exact List.get_mem l k h

theorem sorted_getD_le (entries : List IndexEntry)
    (hsorted : entries.Pairwise (fun a b => a.LogicalOff < b.LogicalOff)) (a b : Nat)
    (hab : a ≤ b) (hb : b < entries.length) :
    (entries.getD a ⟨0, 0⟩).LogicalOff ≤ (entries.getD b ⟨0, 0⟩).LogicalOff := by
  rcases Nat.lt_or_ge a b with h | h
  · have := List.pairwise_iff_get.mp hsorted ⟨a, by omega⟩ ⟨b, hb⟩ h
    rw [getD_eq_get entries a (by omega), getD_eq_get entries b hb]
    omega
  · have hba : a = b := by omega
    subst hba
    omega

end Brook

/-- `FindNearest` on a well-formed index file of strictly increasing entries
returns exactly `findNearestSpec`. -/
theorem Brook.FindNearest_sorted (entries : List Brook.IndexEntry) (t : Nat)
    (hsorted : entries.Pairwise (fun a b => a.LogicalOff < b.LogicalOff))
    (hb : ∀ e ∈ entries, e.LogicalOff < 2 ^ 32 ∧ e.MemoryPos < 2 ^ 32) :
    Brook.Index.FindNearest (List.flatten (entries.map Brook.IndexEntry.marshal)) t =
      .ok (Brook.findNearestSpec entries t) := by
  set bytes := List.flatten (entries.map Brook.IndexEntry.marshal) with hbytes
  set n := entries.length with hn
  have hlen : bytes.length = 8 * n := Brook.flatten_marshal_length entries
  have hread : ∀ k, k < n → Brook.Index.readEntryInternal bytes k =
      .ok (entries.getD k ⟨0, 0⟩) := by
    intro k hk
    rw [Brook.readEntryInternal_ok bytes k (by omega)]
    rw [Brook.flatten_marshal_slice entries k hk]
    rw [Brook.IndexEntry.unmarshal_marshal]
    have h1 := (hb _ (Brook.getD_mem entries k hk)).1
    have h2 := (hb _ (Brook.getD_mem entries k hk)).2
    congr 1
    cases hg : entries.getD k ⟨0, 0⟩ with
    | mk a b =>
      rw [hg] at h1 h2
      simp_all [Nat.mod_eq_of_lt]
  cases hcase : entries with
  | nil =>
    subst hcase
    have hbe : bytes = [] := by
      rw [hbytes]
      simp
    rw [hbe, Brook.Index.FindNearest, Brook.findNearestSpec]
    simp [Brook.mmapOf, Brook.MmapStore.Size, Brook.sortSearch_zero, Brook.upperIdx,
      Brook.entryWidth]
  | cons e0 rest =>
    have hne : n ≠ 0 := by rw [hn, hcase]; simp
    rw [← hcase]
    have hbne : bytes.length ≠ 0 := by omega
    have hmm : Brook.mmapOf bytes = ⟨some bytes⟩ := by simp [Brook.mmapOf, hbne]
    have hsz : (Brook.mmapOf bytes).Size = 8 * n := by rw [hmm]; simp [Brook.MmapStore.Size]; omega
    have htot : (Brook.mmapOf bytes).Size / Brook.entryWidth = n := by
      rw [hsz, Brook.entryWidth]
      omega
    rw [Brook.Index.FindNearest]
    simp only [htot]
    set f : Nat → Bool := fun k =>
      match Brook.Index.readEntryInternal bytes k with
      | .ok e => decide (t < e.LogicalOff)
      | .error _ => false with hf
    have hfval : ∀ k, k < n → f k = decide (t < (entries.getD k ⟨0, 0⟩).LogicalOff) := by
      intro k hk
      rw [hf]
      simp only [hread k hk]
    have hmono : ∀ a b, a ≤ b → b < n → f a = true → f b = true := by
      intro a b hab hbn hfa
      rw [hfval a (by omega)] at hfa
      rw [hfval b hbn]
      have := Brook.sorted_getD_le entries hsorted a b hab hbn
      simp only [decide_eq_true_eq] at hfa ⊢
      omega
    have hchar2 : (∀ k, k < Brook.upperIdx t entries → f k = false) ∧
        Brook.upperIdx t entries ≤ n ∧
        (Brook.upperIdx t entries < n → f (Brook.upperIdx t entries) = true) := by
      refine ⟨?_, Brook.upperIdx_le t entries, ?_⟩
      · intro k hk
        have hkn : k < n := by
          have := Brook.upperIdx_le t entries
          omega
        rw [hfval k hkn]
        have := Brook.upperIdx_lt t entries k hk
        simp only [decide_eq_false_iff_not]
        omega
      · intro hu
        rw [hfval _ hu]
        have := Brook.upperIdx_boundary t entries hu
        simp only [decide_eq_true_eq]
        omega
    have hidx : Brook.sortSearch n f = Brook.upperIdx t entries :=
      Brook.least_unique n f _ _ (Brook.sortSearch_least n f hmono) hchar2
    rw [hidx, Brook.findNearestSpec]
    by_cases hu : Brook.upperIdx t entries = 0
    · rw [if_pos hu, if_pos hu]
    · rw [if_neg hu, if_neg hu]
      have hul : Brook.upperIdx t entries ≤ n := Brook.upperIdx_le t entries
      exact hread _ (by omega)

/-! ## C4 -/

/-- C4: on an index whose stored entries are strictly increasing in
`logical_off` (with fields in u32 range), `FindNearest(t)` returns the
sentinel `{0,0}` when there is no entry or the first entry already exceeds
`t`, and otherwise the entry `e_{i-1}` where `i` is the smallest index with
`e_i.logical_off > t` (`i = n` when none) — that is, the last entry with
`logical_off ≤ t`. -/
theorem C4_find_nearest (entries : List Brook.IndexEntry) (t : Nat)
    (hsorted : entries.Pairwise (fun a b => a.LogicalOff < b.LogicalOff))
    (hb : ∀ e ∈ entries, e.LogicalOff < 2 ^ 32 ∧ e.MemoryPos < 2 ^ 32) :
    Brook.Index.FindNearest (List.flatten (entries.map Brook.IndexEntry.marshal)) t =
      .ok (Brook.findNearestSpec entries t) :=
  Brook.FindNearest_sorted entries t hsorted hb

/-- Witness for C4 on a concrete two-entry index and target `7`. -/
theorem C4_find_nearest_witness :
    Brook.Index.FindNearest
      (List.flatten ([⟨5, 100⟩, ⟨10, 200⟩].map Brook.IndexEntry.marshal)) 7 =
      .ok (Brook.findNearestSpec [⟨5, 100⟩, ⟨10, 200⟩] 7) :=
  C4_find_nearest [⟨5, 100⟩, ⟨10, 200⟩] 7 (by simp) (by decide)

/-! ## C6 -/

/-- C6: opening an index whose on-disk size is `8k + r`, `r ∈ [1,7]`,
truncates the file to exactly `8k` bytes, and afterwards `LastEntry` returns
the `(k-1)`-th stored entry, or the sentinel `{0,0}` when `k = 0`. -/
theorem C6_index_open_truncation (raw : List Nat) (k r : Nat)
    (hlen : raw.length = 8 * k + r) (hr1 : 1 ≤ r) (hr7 : r ≤ 7) :
    (Brook.NewIndexFile raw).length = 8 * k ∧
    Brook.Index.LastEntry (Brook.NewIndexFile raw) =
      .ok (if k = 0 then ⟨0, 0⟩
        else (Brook.indexEntriesOf (Brook.NewIndexFile raw)).getD (k - 1) ⟨0, 0⟩) := by
  have htr : Brook.NewIndexFile raw = raw.take (8 * k) := by
    rw [Brook.NewIndexFile, Brook.entryWidth]
    congr 1
    omega
  have hlen' : (Brook.NewIndexFile raw).length = 8 * k := by
    rw [htr, List.length_take]
    omega
  refine ⟨hlen', ?_⟩
  by_cases hk : k = 0
  · subst hk
    have : Brook.NewIndexFile raw = [] := List.eq_nil_of_length_eq_zero (by omega)
    rw [this, Brook.Index.LastEntry]
    simp [Brook.mmapOf, Brook.MmapStore.Size]
  · have hne : (Brook.NewIndexFile raw).length ≠ 0 := by omega
    have hmm : Brook.mmapOf (Brook.NewIndexFile raw) = ⟨some (Brook.NewIndexFile raw)⟩ := by
      simp [Brook.mmapOf, hne]
    rw [Brook.Index.LastEntry]
    simp only [hmm, Brook.MmapStore.Size, hlen']
    rw [if_neg (by omega)]
    have hidx : 8 * k / Brook.entryWidth - 1 = k - 1 := by
      rw [Brook.entryWidth]
      omega
    rw [hidx, if_neg hk]
    rw [Brook.readEntryInternal_ok _ (k - 1) (by omega)]
    rw [Brook.indexEntriesOf_getD _ (k - 1) (by omega)]

/-- Witness for C6 on a 9-byte file (`k = 1`, `r = 1`). -/
theorem C6_index_open_truncation_witness :
    (Brook.NewIndexFile (List.replicate 9 0)).length = 8 * 1 ∧
    Brook.Index.LastEntry (Brook.NewIndexFile (List.replicate 9 0)) =
      .ok (if 1 = 0 then ⟨0, 0⟩
        else (Brook.indexEntriesOf (Brook.NewIndexFile (List.replicate 9 0))).getD (1 - 1) ⟨0, 0⟩) :=
  C6_index_open_truncation (List.replicate 9 0) 1 1 (by decide) (by decide) (by decide)

namespace Brook

/-! ## Segment log (`Log`)

State of one segment: the `.log` file bytes, the `.index` file bytes, the
bookkeeping counters, the base offset and creation time, and the read-only
flag.  Durability modes differ only in buffer sizes and flush/sync policy,
none of which is observable in this model (writes are modelled as
immediately visible, see the header comment), so `NewLogAsync`,
`NewLogMediumDurable` and `NewLogFullDurable` share one embedding. -/

inductive LogErr where
  | recordNotFound
  | ioError
  | readOnlyViolation
deriving DecidableEq, Repr

inductive ScanOutcome where
  | found
  | notFound
  | readErr
deriving DecidableEq, Repr

structure LogState where
  readOnly : Bool
  file : List Nat
  indexBytes : List Nat
  nextMemoryPos : Nat
  nextOffset : Nat
  baseOffset : Nat
  createdAt : Nat
deriving DecidableEq, Repr

/-- A freshly created (empty) writable segment. -/
def freshLog (baseOffset : Nat) (now : Nat) : LogState :=
  { readOnly := false, file := [], indexBytes := [], nextMemoryPos := 0,
    nextOffset := 0, baseOffset := baseOffset, createdAt := now }

/-- `Log.Append`: build `[header][payload]` at global offset
`baseOffset + nextOffset`, append it to the file, advance `nextMemoryPos`
and `nextOffset`, and every 500th record write the index entry
`{LogicalOff: uint32(nextOffset), MemoryPos: uint32(nextMemoryPos)}`
(both values taken after the increment, i.e. one past the appended record). -/
def Log.Append (l : LogState) (payload : List Nat) (ts : Nat) : Except LogErr LogState :=
  if l.readOnly then .error .readOnlyViolation
  else
    let offset := l.baseOffset + l.nextOffset
    let header : RecordHeader := ⟨offset, payload.length, ts⟩
    let buf := header.encode ++ payload
    let file' := l.file ++ buf
    let nextMemoryPos' := l.nextMemoryPos + (HeaderSize + payload.length)
    let nextOffset' := l.nextOffset + 1
    if nextOffset' % 500 ≠ 0 then
      .ok { l with file := file', nextMemoryPos := nextMemoryPos', nextOffset := nextOffset' }
    else
      .ok { l with
        file := file'
        nextMemoryPos := nextMemoryPos'
        nextOffset := nextOffset'
        indexBytes := l.indexBytes ++
          IndexEntry.marshal ⟨nextOffset' % 2 ^ 32, nextMemoryPos' % 2 ^ 32⟩ }

/-- `Log.scanFrom`: walk `[header][payload]` pairs from `currentPos`,
handing each decoded header (and its payload position) to `handle` until it
stops the scan, the position reaches `nextMemoryPos` (record not found), or
a header read runs past the end of the file (I/O error).  The handler state
mirrors the Go closure's captured variables and survives an unsuccessful
scan. -/
def scanFrom {σ : Type} (file : List Nat) (nextMemoryPos : Nat)
    (handle : σ → RecordHeader → Nat → σ × Bool) (currentPos : Nat) (s : σ) :
    σ × ScanOutcome :=
  if _h1 : nextMemoryPos ≤ currentPos then (s, .notFound)
  else if _h2 : file.length < currentPos + HeaderSize then (s, .readErr)
  else
    let header := RecordHeader.decode ((file.drop currentPos).take HeaderSize)
    let hs := handle s header (currentPos + HeaderSize)
    if hs.2 then (hs.1, .found)
    else scanFrom file nextMemoryPos handle (currentPos + HeaderSize + header.PayloadSize) hs.1
termination_by nextMemoryPos - currentPos
decreasing_by simp only [HeaderSize] at *; omega

/-- `Log.loadPayload`: `file.ReadAt` of `payloadSize` bytes at `payloadPos`
(reading zero bytes always succeeds; a short read is an error). -/
def Log.loadPayload (file : List Nat) (payloadPos payloadSize : Nat) : Except LogErr (List Nat) :=
  if payloadSize = 0 then .ok []
  else if file.length < payloadPos + payloadSize then .error .ioError
  else .ok ((file.drop payloadPos).take payloadSize)

/-- `Log.reloadNextOffset`: scan from the last index entry's `memory_pos`
recording each observed header's `LogicalOffset`; on `ErrRecordNotFoundFullScan`
(or a full scan without a match, which the handler never signals) return the
last observed offset plus one; propagate real read errors. -/
def Log.reloadNextOffset (l : LogState) (lastEntry : IndexEntry) : Except LogErr Nat :=
  match scanFrom l.file l.nextMemoryPos (fun (_ : Nat) h _ => (h.LogicalOffset, false))
      lastEntry.MemoryPos 0 with
  | (_, .readErr) => .error .ioError
  | (last, .found) => .ok (last + 1)
  | (last, .notFound) => .ok (last + 1)

/-- The closure `FindRecord` hands to `scanFrom`: its state is the pair of
captured variables `(record-so-far, load-error flag)`; a header matching the
target loads the payload (recording a sticky load error and continuing on
failure). -/
def findHandler (file : List Nat) (target : Nat) :
    (Option Record × Bool) → RecordHeader → Nat → (Option Record × Bool) × Bool :=
  fun s h payloadPos =>
    if h.LogicalOffset = target then
      match Log.loadPayload file payloadPos h.PayloadSize with
      | .error _ => ((s.1, true), false)
      | .ok pb => ((some ⟨h, pb⟩, s.2), true)
    else (s, false)

/-- `Log.FindRecord`: `FindNearest(uint32(target))` on the index, then scan
forward from the returned `memory_pos` with `findHandler`; the Go code
checks the load error first, then the scan error. -/
def Log.FindRecord (l : LogState) (targetLogicalOffset : Nat) : Except LogErr Record :=
  match Index.FindNearest l.indexBytes (targetLogicalOffset % 2 ^ 32) with
  | .error _ => .error .ioError
  | .ok baseIndexEntry =>
    match scanFrom l.file l.nextMemoryPos (findHandler l.file targetLogicalOffset)
        baseIndexEntry.MemoryPos (none, false) with
    | ((_, true), _) => .error .ioError
    | ((some r, false), .found) => .ok r
    | ((none, false), .found) => .error .ioError
    | ((_, false), .notFound) => .error .recordNotFound
    | ((_, false), .readErr) => .error .ioError

/-- Shared body of `NewLogReadOnly` and `newLog` (the writable constructors):
truncate the index tail, read its last entry, and when the segment file is
non-empty recover `nextOffset` by `reloadNextOffset` and take `createdAt`
from the file's modification time. -/
def openLog (readOnly : Bool) (file rawIndex : List Nat) (baseOffset : Nat)
    (nowNs modTimeNs : Nat) : Except LogErr LogState :=
  let indexBytes := NewIndexFile rawIndex
  match Index.LastEntry indexBytes with
  | .error _ => .error .ioError
  | .ok lastEntry =>
    let l : LogState :=
      { readOnly := readOnly, file := file, indexBytes := indexBytes,
        nextMemoryPos := file.length, nextOffset := 0, baseOffset := baseOffset,
        createdAt := nowNs }
    if file.length = 0 then .ok l
    else
      match Log.reloadNextOffset l lastEntry with
      | .error e => .error e
      | .ok no => .ok { l with nextOffset := no, createdAt := modTimeNs }

/-- `NewLogReadOnly`. -/
def NewLogReadOnly (file rawIndex : List Nat) (baseOffset : Nat) (nowNs modTimeNs : Nat) :
    Except LogErr LogState :=
  openLog true file rawIndex baseOffset nowNs modTimeNs

/-- `NewLogMediumDurable` (writable; buffer size and flush policy are not
observable in this model). -/
def NewLogMediumDurable (file rawIndex : List Nat) (baseOffset : Nat) (nowNs modTimeNs : Nat) :
    Except LogErr LogState :=
  openLog false file rawIndex baseOffset nowNs modTimeNs

theorem scanFrom_at_end {σ : Type} (file : List Nat) (nextMemoryPos : Nat)
    (handle : σ → RecordHeader → Nat → σ × Bool) (currentPos : Nat) (s : σ)
    (h : nextMemoryPos ≤ currentPos) :
    scanFrom file nextMemoryPos handle currentPos s = (s, .notFound) := by
  rw [scanFrom, dif_pos h]

theorem FindNearest_nil (t : Nat) : Index.FindNearest [] t = .ok ⟨0, 0⟩ := by
  rw [Index.FindNearest]
  simp [mmapOf, MmapStore.Size, sortSearch_zero, entryWidth]

end Brook

namespace Brook

/-! ## Sequences of appends: the on-disk layout they produce -/

/-- Bytes occupied by one record: header plus payload. -/
def recSize (pt : List Nat × Nat) : Nat := HeaderSize + pt.1.length

/-- Total bytes of a sequence of `(payload, timestamp)` records. -/
def totalSize (items : List (List Nat × Nat)) : Nat := (items.map recSize).sum

/-- Byte position where the `i`-th record starts. -/
def sizeUpTo (items : List (List Nat × Nat)) (i : Nat) : Nat := totalSize (items.take i)

/-- The segment file produced by appending `items` starting at global offset `b`:
`[header][payload]` pairs with consecutive logical offsets. -/
def fileFrom (b : Nat) : List (List Nat × Nat) → List Nat
  | [] => []
  | pt :: rest => RecordHeader.encode ⟨b, pt.1.length, pt.2⟩ ++ pt.1 ++ fileFrom (b + 1) rest

/-- The index entries produced by appending `items` to a fresh segment: one
per 500 records, holding the local offset one past the 500th record and the
byte position one past it. -/
def idxEntries (items : List (List Nat × Nat)) : List IndexEntry :=
  (List.range (items.length / 500)).map
    fun m => ⟨500 * (m + 1), sizeUpTo items (500 * (m + 1))⟩

/-- The index file produced by appending `items` to a fresh segment. -/
def idxBytes (items : List (List Nat × Nat)) : List Nat :=
  List.flatten ((idxEntries items).map IndexEntry.marshal)

/-- Fold `Log.Append` over a list of `(payload, timestamp)` pairs. -/
def logAppendAll (l : LogState) : List (List Nat × Nat) → Except LogErr LogState
  | [] => .ok l
  | pt :: rest =>
    match Log.Append l pt.1 pt.2 with
    | .error e => .error e
    | .ok l' => logAppendAll l' rest

theorem IndexEntry.marshal_mod (a b : Nat) :
    IndexEntry.marshal ⟨a % 2 ^ 32, b % 2 ^ 32⟩ = IndexEntry.marshal ⟨a, b⟩ := by
  show putUint32 (a % 2 ^ 32) ++ putUint32 (b % 2 ^ 32) = putUint32 a ++ putUint32 b
  rw [putUint32_mod, putUint32_mod]

theorem logAppendAll_concat (l : LogState) (xs : List (List Nat × Nat)) (x : List Nat × Nat) :
    logAppendAll l (xs ++ [x]) =
      (logAppendAll l xs).bind (fun l' => Log.Append l' x.1 x.2) := by
  induction xs generalizing l with
  | nil =>
    simp only [List.nil_append, logAppendAll]
    cases h : Log.Append l x.1 x.2 with
    | error e =>
      simp only [Except.bind]
      exact h.symm
    | ok l' =>
      simp only [Except.bind, logAppendAll]
      exact h.symm
  | cons pt rest ih =>
    simp only [List.cons_append, logAppendAll]
    cases h : Log.Append l pt.1 pt.2 with
    | error e => simp [Except.bind]
    | ok l' => simpa using ih l'

theorem fileFrom_concat (x : List Nat × Nat) :
    ∀ (xs : List (List Nat × Nat)) (b : Nat),
      fileFrom b (xs ++ [x]) =
        fileFrom b xs ++ (RecordHeader.encode ⟨b + xs.length, x.1.length, x.2⟩ ++ x.1) := by
  intro xs
  induction xs with
  | nil =>
    intro b
    rw [List.nil_append, fileFrom, fileFrom, fileFrom]
    simp
  | cons pt rest ih =>
    intro b
    rw [List.cons_append, fileFrom, fileFrom, ih (b + 1)]
    have harith : b + 1 + rest.length = b + (rest.length + 1) := by omega
    simp only [List.length_cons, List.append_assoc, harith]

theorem totalSize_concat (xs : List (List Nat × Nat)) (x : List Nat × Nat) :
    totalSize (xs ++ [x]) = totalSize xs + recSize x := by
  simp [totalSize]

theorem sizeUpTo_concat (xs : List (List Nat × Nat)) (x : List Nat × Nat) (i : Nat)
    (hi : i ≤ xs.length) : sizeUpTo (xs ++ [x]) i = sizeUpTo xs i := by
  rw [sizeUpTo, sizeUpTo, List.take_append_of_le_length hi]

theorem sizeUpTo_all (xs : List (List Nat × Nat)) : sizeUpTo xs xs.length = totalSize xs := by
  rw [sizeUpTo, List.take_length]

theorem sizeUpTo_split (items : List (List Nat × Nat)) (i : Nat) :
    totalSize items = sizeUpTo items i + totalSize (items.drop i) := by
  conv_lhs => rw [← List.take_append_drop i items]
  rw [sizeUpTo, totalSize, totalSize, totalSize, List.map_append, List.sum_append]

theorem sizeUpTo_le_total (items : List (List Nat × Nat)) (i : Nat) :
    sizeUpTo items i ≤ totalSize items := by
  rw [sizeUpTo_split items i]
  omega

theorem idxEntries_concat (xs : List (List Nat × Nat)) (x : List Nat × Nat) :
    idxEntries (xs ++ [x]) =
      idxEntries xs ++
        (if (xs.length + 1) % 500 = 0 then
          [(⟨xs.length + 1, totalSize xs + recSize x⟩ : IndexEntry)]
        else []) := by
  have hmap : ∀ K : Nat, 500 * K ≤ xs.length →
      (List.range K).map
          (fun m => (⟨500 * (m + 1), sizeUpTo (xs ++ [x]) (500 * (m + 1))⟩ : IndexEntry)) =
        (List.range K).map
          (fun m => (⟨500 * (m + 1), sizeUpTo xs (500 * (m + 1))⟩ : IndexEntry)) := by
    intro K hK
    refine List.map_congr_left ?_
    intro m hm
    rw [List.mem_range] at hm
    rw [sizeUpTo_concat xs x _ (by omega)]
  have hdivle : 500 * (xs.length / 500) ≤ xs.length := by
    have := Nat.div_mul_le_self xs.length 500
    omega
  have hlen1 : (xs ++ [x]).length = xs.length + 1 := by simp
  by_cases hdvd : 500 ∣ xs.length + 1
  · have hmod : (xs.length + 1) % 500 = 0 := by omega
    have hdiv : (xs.length + 1) / 500 = xs.length / 500 + 1 := Nat.succ_div_of_dvd hdvd
    have h500 : 500 * (xs.length / 500 + 1) = xs.length + 1 := by omega
    rw [idxEntries, hlen1, hdiv, List.range_succ, List.map_append]
    rw [hmap (xs.length / 500) hdivle]
    rw [if_pos hmod, idxEntries]
    congr 1
    simp only [List.map_cons, List.map_nil, List.cons.injEq, and_true]
    rw [h500, show xs.length + 1 = (xs ++ [x]).length from hlen1.symm, sizeUpTo_all,
      totalSize_concat]
  · have hmod : (xs.length + 1) % 500 ≠ 0 := by omega
    have hdiv : (xs.length + 1) / 500 = xs.length / 500 := Nat.succ_div_of_not_dvd hdvd
    rw [idxEntries, hlen1, hdiv, hmap (xs.length / 500) hdivle, if_neg hmod, List.append_nil,
      idxEntries]

theorem idxBytes_concat (xs : List (List Nat × Nat)) (x : List Nat × Nat) :
    idxBytes (xs ++ [x]) =
      idxBytes xs ++
        (if (xs.length + 1) % 500 = 0 then
          IndexEntry.marshal ⟨xs.length + 1, totalSize xs + recSize x⟩
        else []) := by
  rw [idxBytes, idxEntries_concat, List.map_append, List.flatten_append, ← idxBytes]
  by_cases h5 : (xs.length + 1) % 500 = 0
  · rw [if_pos h5, if_pos h5]
    simp
  · rw [if_neg h5, if_neg h5]
    simp

/-- `Log.Append` on a writable segment, unfolded. -/
theorem Log.Append_writable (l : LogState) (hro : l.readOnly = false) (p : List Nat) (ts : Nat) :
    Log.Append l p ts =
      (if (l.nextOffset + 1) % 500 ≠ 0 then
        .ok { l with
          file := l.file ++ (RecordHeader.encode ⟨l.baseOffset + l.nextOffset, p.length, ts⟩ ++ p)
          nextMemoryPos := l.nextMemoryPos + (HeaderSize + p.length)
          nextOffset := l.nextOffset + 1 }
      else
        .ok { l with
          file := l.file ++ (RecordHeader.encode ⟨l.baseOffset + l.nextOffset, p.length, ts⟩ ++ p)
          nextMemoryPos := l.nextMemoryPos + (HeaderSize + p.length)
          nextOffset := l.nextOffset + 1
          indexBytes := l.indexBytes ++
            IndexEntry.marshal
              ⟨(l.nextOffset + 1) % 2 ^ 32, (l.nextMemoryPos + (HeaderSize + p.length)) % 2 ^ 32⟩ }) := by
  rw [Log.Append, hro]
  simp only [Bool.false_eq_true, if_false]

/-- After appending `items` to a fresh writable segment at base offset `b`,
the state is exactly the laid-out file, the sparse index, total size, and
record count described by `fileFrom`, `idxBytes`, `totalSize`. -/
theorem logAppendAll_spec (b now : Nat) (items : List (List Nat × Nat)) :
    logAppendAll (freshLog b now) items = .ok
      { readOnly := false
        file := fileFrom b items
        indexBytes := idxBytes items
        nextMemoryPos := totalSize items
        nextOffset := items.length
        baseOffset := b
        createdAt := now } := by
  induction items using List.reverseRecOn with
  | nil => rfl
  | append_singleton xs x ih =>
    rw [logAppendAll_concat, ih]
    show Log.Append _ x.1 x.2 = _
    rw [Log.Append_writable _ rfl]
    by_cases h5 : (xs.length + 1) % 500 = 0
    · rw [if_neg (by simpa using h5)]
      rw [fileFrom_concat, totalSize_concat, idxBytes_concat, if_pos h5, recSize]
      rw [← IndexEntry.marshal_mod (xs.length + 1) (totalSize xs + (HeaderSize + x.1.length))]
      simp
    · rw [if_pos (by simpa using h5)]
      rw [fileFrom_concat, totalSize_concat, idxBytes_concat, if_neg h5, List.append_nil, recSize]
      simp

end Brook

namespace Brook

/-! ## Positions and slices of the laid-out segment file -/

theorem totalSize_cons (pt : List Nat × Nat) (rest : List (List Nat × Nat)) :
    totalSize (pt :: rest) = recSize pt + totalSize rest := by
  simp [totalSize]

theorem fileFrom_length (items : List (List Nat × Nat)) :
    ∀ b, (fileFrom b items).length = totalSize items := by
  induction items with
  | nil => intro b; rfl
  | cons pt rest ih =>
    intro b
    rw [fileFrom, totalSize_cons, recSize]
    simp only [List.length_append, RecordHeader.encode_length, ih (b + 1), HeaderSize]

theorem sizeUpTo_zero (items : List (List Nat × Nat)) : sizeUpTo items 0 = 0 := rfl

theorem getD_eq_getElem_items (items : List (List Nat × Nat)) (j : Nat)
    (hj : j < items.length) : items.getD j ([], 0) = items[j] := by
  rw [List.getD_eq_getElem?_getD, List.getElem?_eq_getElem hj]
  rfl

theorem sizeUpTo_succ (items : List (List Nat × Nat)) (j : Nat) (hj : j < items.length) :
    sizeUpTo items (j + 1) = sizeUpTo items j + recSize (items.getD j ([], 0)) := by
  rw [sizeUpTo, sizeUpTo, List.take_succ, List.getElem?_eq_getElem hj]
  simp only [Option.toList_some]
  rw [totalSize, List.map_append, List.sum_append]
  simp only [List.map_cons, List.map_nil, List.sum_cons, List.sum_nil]
  rw [← totalSize, getD_eq_getElem_items items j hj]
  omega

theorem recSize_ge (pt : List Nat × Nat) : 24 ≤ recSize pt := by
  rw [recSize, HeaderSize]
  omega

theorem length_le_totalSize (items : List (List Nat × Nat)) :
    24 * items.length ≤ totalSize items := by
  induction items with
  | nil => simp [totalSize]
  | cons pt rest ih =>
    rw [totalSize_cons]
    have := recSize_ge pt
    simp only [List.length_cons]
    omega

theorem fileFrom_drop (items : List (List Nat × Nat)) :
    ∀ (j : Nat) (b : Nat), j ≤ items.length →
      (fileFrom b items).drop (sizeUpTo items j) = fileFrom (b + j) (items.drop j) := by
  induction items with
  | nil =>
    intro j b hj
    have : j = 0 := by simpa using hj
    subst this
    rfl
  | cons pt rest ih =>
    intro j b hj
    cases j with
    | zero => simp [sizeUpTo_zero]
    | succ j =>
      have hsz : sizeUpTo (pt :: rest) (j + 1) = recSize pt + sizeUpTo rest j := by
        rw [sizeUpTo, List.take_succ_cons, totalSize_cons, sizeUpTo]
      rw [hsz, fileFrom, ← List.drop_drop]
      have hdl : ((RecordHeader.encode ⟨b, pt.1.length, pt.2⟩ ++ pt.1) ++
          fileFrom (b + 1) rest).drop (recSize pt) = fileFrom (b + 1) rest :=
        List.drop_left' (by simp [recSize, HeaderSize])
      rw [show RecordHeader.encode ⟨b, pt.1.length, pt.2⟩ ++ pt.1 ++ fileFrom (b + 1) rest =
        (RecordHeader.encode ⟨b, pt.1.length, pt.2⟩ ++ pt.1) ++ fileFrom (b + 1) rest from rfl]
      rw [hdl, ih j (b + 1) (by simpa using hj)]
      rw [List.drop_succ_cons]
      congr 1
      omega

/-- The file seen from the start of record `j`: that record's header and
payload followed by the rest of the records. -/
theorem fileFrom_suffix (items : List (List Nat × Nat)) (j : Nat) (hj : j < items.length)
    (b : Nat) :
    (fileFrom b items).drop (sizeUpTo items j) =
      RecordHeader.encode ⟨b + j, (items.getD j ([], 0)).1.length, (items.getD j ([], 0)).2⟩ ++
        ((items.getD j ([], 0)).1 ++ fileFrom (b + j + 1) (items.drop (j + 1))) := by
  rw [fileFrom_drop items j b (Nat.le_of_lt hj), List.drop_eq_getElem_cons hj, fileFrom]
  rw [getD_eq_getElem_items items j hj]
  simp [List.append_assoc]

end Brook

namespace Brook

/-! ## Where `FindNearest` lands on the layout produced by appends -/

theorem idxEntries_length (items : List (List Nat × Nat)) :
    (idxEntries items).length = items.length / 500 := by
  simp [idxEntries]

theorem idxEntries_getD (items : List (List Nat × Nat)) (m : Nat)
    (hm : m < items.length / 500) :
    (idxEntries items).getD m ⟨0, 0⟩ =
      ⟨500 * (m + 1), sizeUpTo items (500 * (m + 1))⟩ := by
  rw [getD_eq_get _ m (by rw [idxEntries_length]; omega)]
  simp [idxEntries]

theorem idxEntries_sorted (items : List (List Nat × Nat)) :
    (idxEntries items).Pairwise (fun a b => a.LogicalOff < b.LogicalOff) := by
  refine List.pairwise_iff_get.mpr ?_
  intro i j hij
  have h' : (i : Nat) < (j : Nat) := hij
  simp only [idxEntries, List.get_eq_getElem, List.getElem_map, List.getElem_range]
  omega

theorem FindNearest_idxBytes (items : List (List Nat × Nat))
    (htot : totalSize items < 2 ^ 32) (t : Nat) :
    ∃ e s, Index.FindNearest (idxBytes items) t = .ok e ∧
      e.MemoryPos = sizeUpTo items s ∧ s ≤ t := by
  have hN : 24 * items.length ≤ totalSize items := length_le_totalSize items
  have hM : 500 * (items.length / 500) ≤ items.length := by
    have := Nat.div_mul_le_self items.length 500
    omega
  set M := items.length / 500 with hMdef
  have hb : ∀ e ∈ idxEntries items, e.LogicalOff < 2 ^ 32 ∧ e.MemoryPos < 2 ^ 32 := by
    intro e he
    rw [idxEntries] at he
    simp only [List.mem_map, List.mem_range] at he
    obtain ⟨m, hm, rfl⟩ := he
    constructor
    · show 500 * (m + 1) < 2 ^ 32
      omega
    · show sizeUpTo items (500 * (m + 1)) < 2 ^ 32
      have := sizeUpTo_le_total items (500 * (m + 1))
      omega
  have hfind := FindNearest_sorted (idxEntries items) t (idxEntries_sorted items) hb
  rw [idxBytes]
  rw [hfind]
  set u := upperIdx t (idxEntries items) with hu
  have hulen : u ≤ M := by
    have := upperIdx_le t (idxEntries items)
    rw [idxEntries_length] at this
    omega
  have huval : u = min M (t / 500) := by
    refine least_unique M (fun k => decide (t < 500 * (k + 1))) u (min M (t / 500)) ⟨?_, hulen, ?_⟩
      ⟨?_, by omega, ?_⟩
    · intro k hk
      have hkM : k < M := by omega
      have := upperIdx_lt t (idxEntries items) k hk
      rw [idxEntries_getD items k (by omega)] at this
      dsimp only at this
      simp only [decide_eq_false_iff_not]
      omega
    · intro hlt
      have := upperIdx_boundary t (idxEntries items) (by rw [idxEntries_length]; omega)
      rw [idxEntries_getD items u (by omega)] at this
      dsimp only at this
      simp only [decide_eq_true_eq]
      omega
    · intro k hk
      have hk5 : k < t / 500 := by omega
      simp only [decide_eq_false_iff_not]
      omega
    · intro hlt
      have hmin : min M (t / 500) = t / 500 := by omega
      simp only [decide_eq_true_eq, hmin]
      omega
  by_cases hu0 : u = 0
  · refine ⟨⟨0, 0⟩, 0, ?_, by rw [sizeUpTo_zero], by omega⟩
    rw [findNearestSpec, ← hu, if_pos hu0]
  · refine ⟨(idxEntries items).getD (u - 1) ⟨0, 0⟩, 500 * u, ?_, ?_, ?_⟩
    · rw [findNearestSpec, ← hu, if_neg hu0]
    · rw [idxEntries_getD items (u - 1) (by omega)]
      have : u - 1 + 1 = u := by omega
      rw [this]
    · have hu5 : u ≤ t / 500 := by omega
      omega

end Brook

namespace Brook

/-- One step of the `FindRecord` scan over a laid-out file with base offset
`b`: from the start of record `j ≤ i` it either finds record `i` (when
`j = i`) or moves to the start of record `j + 1`. -/
theorem scanFrom_finds_step (items : List (List Nat × Nat)) (b : Nat)
    (htot : totalSize items < 2 ^ 32) (hb32 : b + items.length ≤ 2 ^ 32)
    (i : Nat) (hi : i < items.length) (j : Nat) (hj : j ≤ i) :
    scanFrom (fileFrom b items) (totalSize items) (findHandler (fileFrom b items) (b + i))
        (sizeUpTo items j) ((none : Option Record), false) =
      (if j = i then
        ((some ⟨⟨b + i, (items.getD i ([], 0)).1.length, (items.getD i ([], 0)).2 % 2 ^ 64⟩,
            (items.getD i ([], 0)).1⟩, false), .found)
      else
        scanFrom (fileFrom b items) (totalSize items) (findHandler (fileFrom b items) (b + i))
          (sizeUpTo items (j + 1)) ((none : Option Record), false)) := by
  have hjN : j < items.length := Nat.lt_of_le_of_lt hj hi
  have hN : 24 * items.length ≤ totalSize items := length_le_totalSize items
  have hlenF : (fileFrom b items).length = totalSize items := fileFrom_length items b
  have hsz1 : sizeUpTo items (j + 1) = sizeUpTo items j + recSize (items.getD j ([], 0)) :=
    sizeUpTo_succ items j hjN
  have hrec : recSize (items.getD j ([], 0)) = 24 + (items.getD j ([], 0)).1.length := by
    rw [recSize, HeaderSize]
  have hle1 : sizeUpTo items (j + 1) ≤ totalSize items := sizeUpTo_le_total items (j + 1)
  have hpos : sizeUpTo items j < totalSize items := by omega
  have hdrop := fileFrom_suffix items j hjN b
  have htake : ((fileFrom b items).drop (sizeUpTo items j)).take HeaderSize =
      RecordHeader.encode ⟨b + j, (items.getD j ([], 0)).1.length, (items.getD j ([], 0)).2⟩ := by
    rw [hdrop]
    exact List.take_left' (by simp [HeaderSize])
  have hj64 : b + j < 2 ^ 64 := by omega
  have hp64 : (items.getD j ([], 0)).1.length < 2 ^ 64 := by omega
  have hdec : RecordHeader.decode (((fileFrom b items).drop (sizeUpTo items j)).take HeaderSize) =
      ⟨b + j, (items.getD j ([], 0)).1.length, (items.getD j ([], 0)).2 % 2 ^ 64⟩ := by
    rw [htake, RecordHeader.decode_encode]
    dsimp only
    rw [Nat.mod_eq_of_lt hj64, Nat.mod_eq_of_lt hp64]
  rw [scanFrom]
  rw [dif_neg (by omega : ¬ totalSize items ≤ sizeUpTo items j)]
  rw [dif_neg (show ¬ (fileFrom b items).length < sizeUpTo items j + HeaderSize by
    rw [hlenF, HeaderSize]; omega)]
  simp only [hdec]
  by_cases hji : j = i
  · subst hji
    rw [if_pos rfl]
    show (if ((findHandler (fileFrom b items) (b + j))
        ((none : Option Record), false)
        ⟨b + j, (items.getD j ([], 0)).1.length, (items.getD j ([], 0)).2 % 2 ^ 64⟩
        (sizeUpTo items j + HeaderSize)).2 = true then _ else _) = _
    rw [findHandler]
    dsimp only
    rw [if_pos rfl]
    by_cases hp0 : (items.getD j ([], 0)).1.length = 0
    · have hpnil : (items.getD j ([], 0)).1 = [] := List.eq_nil_of_length_eq_zero hp0
      rw [Log.loadPayload, if_pos hp0]
      dsimp only
      rw [hpnil, if_pos rfl]
    · have hbound : ¬ (fileFrom b items).length <
          sizeUpTo items j + HeaderSize + (items.getD j ([], 0)).1.length := by
        rw [hlenF, HeaderSize]
        omega
      rw [Log.loadPayload, if_neg hp0, if_neg hbound]
      dsimp only
      have hdrop2 : (fileFrom b items).drop (sizeUpTo items j + HeaderSize) =
          (items.getD j ([], 0)).1 ++ fileFrom (b + j + 1) (items.drop (j + 1)) := by
        rw [← List.drop_drop, hdrop]
        exact List.drop_left' (by simp [HeaderSize])
      rw [hdrop2, List.take_left' rfl, if_pos rfl]
  · rw [if_neg hji]
    show (if ((findHandler (fileFrom b items) (b + i))
        ((none : Option Record), false)
        ⟨b + j, (items.getD j ([], 0)).1.length, (items.getD j ([], 0)).2 % 2 ^ 64⟩
        (sizeUpTo items j + HeaderSize)).2 = true then _ else _) = _
    rw [findHandler]
    dsimp only
    rw [if_neg (by omega : ¬ b + j = b + i)]
    dsimp only
    rw [if_neg (by simp)]
    congr 1
    rw [hsz1, hrec, HeaderSize]
    omega

/-- Scanning from the start of any record `j ≤ i` finds record `i`. -/
theorem scanFrom_finds (items : List (List Nat × Nat)) (b : Nat)
    (htot : totalSize items < 2 ^ 32) (hb32 : b + items.length ≤ 2 ^ 32)
    (i : Nat) (hi : i < items.length) :
    ∀ d j, j ≤ i → i - j = d →
      scanFrom (fileFrom b items) (totalSize items) (findHandler (fileFrom b items) (b + i))
          (sizeUpTo items j) ((none : Option Record), false) =
        ((some ⟨⟨b + i, (items.getD i ([], 0)).1.length, (items.getD i ([], 0)).2 % 2 ^ 64⟩,
            (items.getD i ([], 0)).1⟩, false), .found) := by
  intro d
  induction d with
  | zero =>
    intro j hj hd
    have : j = i := by omega
    subst this
    rw [scanFrom_finds_step items b htot hb32 j hi j (Nat.le_refl j), if_pos rfl]
  | succ d ih =>
    intro j hj hd
    have hji : j < i := by omega
    rw [scanFrom_finds_step items b htot hb32 i hi j hj, if_neg (by omega)]
    exact ih (j + 1) (by omega) (by omega)

/-- The `reloadNextOffset` scan handler records the last observed header's
logical offset; scanning from the start of record `j < N` always ends with
the last record's offset `b + N - 1` and a not-found outcome. -/
theorem scanFrom_reload (items : List (List Nat × Nat)) (b : Nat)
    (htot : totalSize items < 2 ^ 32) (hb32 : b + items.length ≤ 2 ^ 32) :
    ∀ d j s0, j < items.length → items.length - j = d + 1 →
      scanFrom (fileFrom b items) (totalSize items)
          (fun (_ : Nat) h _ => (h.LogicalOffset, false)) (sizeUpTo items j) s0 =
        (b + items.length - 1, .notFound) := by
  intro d
  induction d with
  | zero =>
    intro j s0 hj hd
    have hji : j = items.length - 1 := by omega
    have hjN : j < items.length := hj
    have hN : 24 * items.length ≤ totalSize items := length_le_totalSize items
    have hlenF : (fileFrom b items).length = totalSize items := fileFrom_length items b
    have hsz1 : sizeUpTo items (j + 1) = sizeUpTo items j + recSize (items.getD j ([], 0)) :=
      sizeUpTo_succ items j hjN
    have hrec : recSize (items.getD j ([], 0)) = 24 + (items.getD j ([], 0)).1.length := by
      rw [recSize, HeaderSize]
    have hle1 : sizeUpTo items (j + 1) ≤ totalSize items := sizeUpTo_le_total items (j + 1)
    have hpos : sizeUpTo items j < totalSize items := by omega
    have hdrop := fileFrom_suffix items j hjN b
    have htake : ((fileFrom b items).drop (sizeUpTo items j)).take HeaderSize =
        RecordHeader.encode ⟨b + j, (items.getD j ([], 0)).1.length, (items.getD j ([], 0)).2⟩ := by
      rw [hdrop]
      exact List.take_left' (by simp [HeaderSize])
    have hdec : RecordHeader.decode
        (((fileFrom b items).drop (sizeUpTo items j)).take HeaderSize) =
        ⟨b + j, (items.getD j ([], 0)).1.length, (items.getD j ([], 0)).2 % 2 ^ 64⟩ := by
      rw [htake, RecordHeader.decode_encode]
      dsimp only
      rw [Nat.mod_eq_of_lt (by omega : b + j < 2 ^ 64),
        Nat.mod_eq_of_lt (by omega : (items.getD j ([], 0)).1.length < 2 ^ 64)]
    rw [scanFrom]
    rw [dif_neg (by omega : ¬ totalSize items ≤ sizeUpTo items j)]
    rw [dif_neg (show ¬ (fileFrom b items).length < sizeUpTo items j + HeaderSize by
      rw [hlenF, HeaderSize]; omega)]
    simp only [hdec]
    rw [if_neg (by simp)]
    have hadv : sizeUpTo items j + HeaderSize + (items.getD j ([], 0)).1.length =
        sizeUpTo items (j + 1) := by
      rw [hsz1, hrec, HeaderSize]
      omega
    rw [hadv]
    have hend : sizeUpTo items (j + 1) = totalSize items := by
      rw [show j + 1 = items.length by omega, sizeUpTo_all]
    rw [scanFrom_at_end _ _ _ _ _ (by omega)]
    congr 1
    omega
  | succ d ih =>
    intro j s0 hj hd
    have hjN : j < items.length := hj
    have hN : 24 * items.length ≤ totalSize items := length_le_totalSize items
    have hlenF : (fileFrom b items).length = totalSize items := fileFrom_length items b
    have hsz1 : sizeUpTo items (j + 1) = sizeUpTo items j + recSize (items.getD j ([], 0)) :=
      sizeUpTo_succ items j hjN
    have hrec : recSize (items.getD j ([], 0)) = 24 + (items.getD j ([], 0)).1.length := by
      rw [recSize, HeaderSize]
    have hle1 : sizeUpTo items (j + 1) ≤ totalSize items := sizeUpTo_le_total items (j + 1)
    have hpos : sizeUpTo items j < totalSize items := by omega
    have hdrop := fileFrom_suffix items j hjN b
    have htake : ((fileFrom b items).drop (sizeUpTo items j)).take HeaderSize =
        RecordHeader.encode ⟨b + j, (items.getD j ([], 0)).1.length, (items.getD j ([], 0)).2⟩ := by
      rw [hdrop]
      exact List.take_left' (by simp [HeaderSize])
    have hdec : RecordHeader.decode
        (((fileFrom b items).drop (sizeUpTo items j)).take HeaderSize) =
        ⟨b + j, (items.getD j ([], 0)).1.length, (items.getD j ([], 0)).2 % 2 ^ 64⟩ := by
      rw [htake, RecordHeader.decode_encode]
      dsimp only
      rw [Nat.mod_eq_of_lt (by omega : b + j < 2 ^ 64),
        Nat.mod_eq_of_lt (by omega : (items.getD j ([], 0)).1.length < 2 ^ 64)]
    rw [scanFrom]
    rw [dif_neg (by omega : ¬ totalSize items ≤ sizeUpTo items j)]
    rw [dif_neg (show ¬ (fileFrom b items).length < sizeUpTo items j + HeaderSize by
      rw [hlenF, HeaderSize]; omega)]
    simp only [hdec]
    rw [if_neg (by simp)]
    have hadv : sizeUpTo items j + HeaderSize + (items.getD j ([], 0)).1.length =
        sizeUpTo items (j + 1) := by
      rw [hsz1, hrec, HeaderSize]
      omega
    rw [hadv]
    exact ih (j + 1) _ (by omega) (by omega)

end Brook

namespace Brook

/-- `totalSize` of `k` empty-payload records. -/
theorem totalSize_replicate (k : Nat) : totalSize (List.replicate k ([], 0)) = 24 * k := by
  induction k with
  | zero => rfl
  | succ k ih =>
    rw [List.replicate_succ, totalSize_cons, ih, recSize, HeaderSize]
    simp
    omega

theorem sizeUpTo_replicate (k i : Nat) :
    sizeUpTo (List.replicate k ([], 0)) i = 24 * min i k := by
  rw [sizeUpTo, List.take_replicate, totalSize_replicate]

theorem idxEntries_replicate (k : Nat) :
    idxEntries (List.replicate k (([] : List Nat), 0)) =
      (List.range (k / 500)).map (fun m => ⟨500 * (m + 1), 24 * (500 * (m + 1))⟩) := by
  rw [idxEntries, List.length_replicate]
  refine List.map_congr_left ?_
  intro m hm
  rw [List.mem_range] at hm
  rw [sizeUpTo_replicate]
  have hle : 500 * (m + 1) ≤ k := by omega
  rw [Nat.min_eq_left hle]

end Brook

/-! ## C2 -/

/-- C2 is refuted as stated (see `C2_counterexample`); this is the amended
claim: for base offset 0 — the convention every test and the partition's
first segment use — after `N` successful appends (of total size below
`2^32`, the range of the index's u32 `memory_pos`) to a fresh segment,
`next_local_offset = N`, and for every `i < N`, `FindRecord(i)` succeeds and
returns a record with `logical_offset = 0 + i` and payload `p_i`.  For a
non-zero base offset the lookup can fail, because index entries store
segment-local offsets while `FindRecord` compares global ones. -/
theorem C2_find_record_base0 (items : List (List Nat × Nat)) (now : Nat)
    (htot : Brook.totalSize items < 2 ^ 32) (i : Nat) (hi : i < items.length) :
    ∃ L, Brook.logAppendAll (Brook.freshLog 0 now) items = .ok L ∧
      L.nextOffset = items.length ∧
      ∃ r, Brook.Log.FindRecord L i = .ok r ∧
        r.Header.LogicalOffset = 0 + i ∧
        r.Payload = (items.getD i ([], 0)).1 := by
  refine ⟨_, Brook.logAppendAll_spec 0 now items, rfl, ?_⟩
  have hN : 24 * items.length ≤ Brook.totalSize items := Brook.length_le_totalSize items
  have hi32 : i % 2 ^ 32 = i := Nat.mod_eq_of_lt (by omega)
  obtain ⟨e, s, hfind, hpos, hsi⟩ := Brook.FindNearest_idxBytes items htot i
  have hb32 : 0 + items.length ≤ 2 ^ 32 := by omega
  have key := Brook.scanFrom_finds items 0 htot hb32 i hi (i - s) s hsi rfl
  rw [Nat.zero_add] at key
  rw [← hpos] at key
  rw [Brook.Log.FindRecord]
  dsimp only
  rw [hi32, hfind]
  dsimp only
  rw [key]
  exact ⟨_, rfl, by simp, rfl⟩

/-- C2 as stated is false for non-zero base offsets: appending 500 empty
payloads to a fresh segment with base offset 501 gives `next_local_offset =
500`, yet `FindRecord(501 + 0)` fails — the single index entry stores the
local offset 500, the floor search maps global target 501 to the byte
position one past the last record, and the scan finds nothing there. -/
theorem C2_counterexample :
    ∃ L, Brook.logAppendAll (Brook.freshLog 501 0) (List.replicate 500 ([], 0)) = .ok L ∧
      L.nextOffset = 500 ∧
      Brook.Log.FindRecord L (501 + 0) = .error Brook.LogErr.recordNotFound := by
  refine ⟨_, Brook.logAppendAll_spec 501 0 _, by dsimp only; rw [List.length_replicate], ?_⟩
  have hidx : Brook.idxBytes (List.replicate 500 (([] : List Nat), 0)) =
      List.flatten ([(⟨500, 12000⟩ : Brook.IndexEntry)].map Brook.IndexEntry.marshal) := by
    rw [Brook.idxBytes, Brook.idxEntries_replicate]
    rfl
  have hfind : Brook.Index.FindNearest
      (Brook.idxBytes (List.replicate 500 (([] : List Nat), 0))) ((501 + 0) % 2 ^ 32) =
      .ok ⟨500, 12000⟩ := by
    rw [hidx]
    rw [Brook.FindNearest_sorted [⟨500, 12000⟩] ((501 + 0) % 2 ^ 32) (by simp) (by decide)]
    rfl
  rw [Brook.Log.FindRecord]
  dsimp only
  rw [hfind]
  dsimp only
  rw [Brook.totalSize_replicate]
  rw [Brook.scanFrom_at_end _ _ _ 12000 _ (by omega)]

/-- Witness for the amended C2 at two concrete records, reading back index 1. -/
theorem C2_find_record_base0_witness :
    ∃ L, Brook.logAppendAll (Brook.freshLog 0 7) [([104, 105], 3), ([120], 4)] = .ok L ∧
      L.nextOffset = ([([104, 105], 3), ([120], 4)] : List (List Nat × Nat)).length ∧
      ∃ r, Brook.Log.FindRecord L 1 = .ok r ∧
        r.Header.LogicalOffset = 0 + 1 ∧
        r.Payload = (([([104, 105], 3), ([120], 4)] : List (List Nat × Nat)).getD 1 ([], 0)).1 :=
  C2_find_record_base0 [([104, 105], 3), ([120], 4)] 7 (by decide) 1 (by decide)

namespace Brook

/-! ## Reopening a laid-out segment -/

theorem idxBytes_length (items : List (List Nat × Nat)) :
    (idxBytes items).length = 8 * (items.length / 500) := by
  rw [idxBytes, flatten_marshal_length, idxEntries_length]

theorem NewIndexFile_aligned (bytes : List Nat) (h : bytes.length % 8 = 0) :
    NewIndexFile bytes = bytes := by
  rw [NewIndexFile, entryWidth, h, Nat.sub_zero, List.take_length]

theorem idxBytes_of_no_entry (items : List (List Nat × Nat)) (h : items.length < 500) :
    idxBytes items = [] := by
  rw [idxBytes, idxEntries]
  have h0 : items.length / 500 = 0 := by omega
  rw [h0]
  rfl

theorem LastEntry_idxBytes (items : List (List Nat × Nat))
    (htot : totalSize items < 2 ^ 32) :
    Index.LastEntry (idxBytes items) =
      .ok (if items.length / 500 = 0 then ⟨0, 0⟩
        else ⟨500 * (items.length / 500), sizeUpTo items (500 * (items.length / 500))⟩) := by
  have hN : 24 * items.length ≤ totalSize items := length_le_totalSize items
  have hlen : (idxBytes items).length = 8 * (items.length / 500) := idxBytes_length items
  have hML : 500 * (items.length / 500) ≤ items.length := by
    have := Nat.div_mul_le_self items.length 500
    omega
  by_cases hM : items.length / 500 = 0
  · have hnil : idxBytes items = [] := by
      rw [idxBytes, idxEntries, hM]
      rfl
    rw [hnil, Index.LastEntry, if_pos hM]
    simp [mmapOf, MmapStore.Size]
  · have hbne : (idxBytes items).length ≠ 0 := by omega
    have hmm : mmapOf (idxBytes items) = ⟨some (idxBytes items)⟩ := by
      simp [mmapOf, hbne]
    rw [Index.LastEntry]
    simp only [hmm, MmapStore.Size, hlen]
    rw [if_neg (by omega), entryWidth]
    have hdiv : 8 * (items.length / 500) / 8 - 1 = items.length / 500 - 1 := by omega
    rw [hdiv]
    rw [readEntryInternal_ok _ _ (by omega)]
    rw [idxBytes]
    rw [flatten_marshal_slice _ _ (by rw [idxEntries_length]; omega)]
    rw [IndexEntry.unmarshal_marshal]
    rw [idxEntries_getD items _ (by omega)]
    dsimp only
    rw [if_neg hM]
    have hsub : items.length / 500 - 1 + 1 = items.length / 500 := by omega
    rw [hsub]
    have hb1 : 500 * (items.length / 500) % 2 ^ 32 = 500 * (items.length / 500) :=
      Nat.mod_eq_of_lt (by omega)
    have hb2 : sizeUpTo items (500 * (items.length / 500)) % 2 ^ 32 =
        sizeUpTo items (500 * (items.length / 500)) :=
      Nat.mod_eq_of_lt (by
        have := sizeUpTo_le_total items (500 * (items.length / 500))
        omega)
    rw [hb1, hb2]

/-- Reopening a segment whose files are exactly the layout of `items` at base
`b`: the tail truncation is a no-op, `nextMemoryPos` is the file size, and
the recovered `nextOffset` is `b + N` — except when `N` is a positive
multiple of 500, where the index's last entry points at end-of-file, the
recovery scan observes no header, and the result collapses to `0 + 1 = 1`. -/
theorem openLog_layout (ro : Bool) (b now mod : Nat) (items : List (List Nat × Nat))
    (htot : totalSize items < 2 ^ 32) (hb32 : b + items.length ≤ 2 ^ 32)
    (hne : items.length ≠ 0) :
    openLog ro (fileFrom b items) (idxBytes items) b now mod = .ok
      { readOnly := ro, file := fileFrom b items, indexBytes := idxBytes items,
        nextMemoryPos := (fileFrom b items).length,
        nextOffset := if 500 ∣ items.length then 1 else b + items.length,
        baseOffset := b, createdAt := mod } := by
  have hN : 24 * items.length ≤ totalSize items := length_le_totalSize items
  have hNIF : NewIndexFile (idxBytes items) = idxBytes items :=
    NewIndexFile_aligned _ (by rw [idxBytes_length]; omega)
  have hML : 500 * (items.length / 500) ≤ items.length := by
    have := Nat.div_mul_le_self items.length 500
    omega
  rw [openLog, hNIF, LastEntry_idxBytes items htot]
  dsimp only
  rw [if_neg (show ¬ (fileFrom b items).length = 0 by rw [fileFrom_length]; omega)]
  rw [Log.reloadNextOffset]
  dsimp only
  rw [show (fileFrom b items).length = totalSize items from fileFrom_length items b]
  by_cases hM : items.length / 500 = 0
  · rw [if_pos hM]
    dsimp only
    have hscan := scanFrom_reload items b htot hb32 (items.length - 1) 0 0 (by omega) (by omega)
    rw [sizeUpTo_zero] at hscan
    rw [hscan]
    dsimp only
    rw [if_neg (show ¬ 500 ∣ items.length by omega)]
    have : b + items.length - 1 + 1 = b + items.length := by omega
    rw [this]
  · rw [if_neg hM]
    dsimp only
    by_cases hdvd : 500 ∣ items.length
    · have h500 : 500 * (items.length / 500) = items.length := by omega
      rw [h500, sizeUpTo_all]
      rw [scanFrom_at_end _ _ _ _ _ (Nat.le_refl _)]
      dsimp only
      rw [if_pos hdvd]
    · have hlt : 500 * (items.length / 500) < items.length := by omega
      have hscan := scanFrom_reload items b htot hb32
        (items.length - (500 * (items.length / 500)) - 1) (500 * (items.length / 500)) 0
        hlt (by omega)
      rw [hscan]
      dsimp only
      rw [if_neg hdvd]
      have : b + items.length - 1 + 1 = b + items.length := by omega
      rw [this]

/-- `FindRecord` on a segment with no records: the empty index yields the
sentinel, and the scan fails immediately. -/
theorem FindRecord_empty (L : LogState) (hidx : L.indexBytes = [])
    (hmem : L.nextMemoryPos = 0) (k : Nat) :
    Log.FindRecord L k = .error .recordNotFound := by
  rw [Log.FindRecord, hidx, FindNearest_nil]
  dsimp only
  rw [hmem]
  rw [scanFrom_at_end _ _ _ _ _ (Nat.le_refl 0)]

/-- `FindRecord` over a laid-out segment with fewer than 500 records (so an
empty sparse index): every record is found by the scan from position 0. -/
theorem FindRecord_small (L : LogState) (items : List (List Nat × Nat)) (b i : Nat)
    (htot : totalSize items < 2 ^ 32) (hb32 : b + items.length ≤ 2 ^ 32)
    (hi : i < items.length) (hsmall : items.length < 500)
    (hfile : L.file = fileFrom b items) (hidx : L.indexBytes = idxBytes items)
    (hmem : L.nextMemoryPos = totalSize items) :
    Log.FindRecord L (b + i) =
      .ok ⟨⟨b + i, (items.getD i ([], 0)).1.length, (items.getD i ([], 0)).2 % 2 ^ 64⟩,
        (items.getD i ([], 0)).1⟩ := by
  rw [Log.FindRecord, hidx, idxBytes_of_no_entry items hsmall, FindNearest_nil]
  dsimp only
  rw [hfile, hmem]
  have key := scanFrom_finds items b htot hb32 i hi i 0 (by omega) (by omega)
  rw [sizeUpTo_zero] at key
  rw [key]

end Brook

/-! ## C5 -/

/-- C5: after any sequence of successful appends to a fresh segment (with the
u32 `memory_pos` field not overflowing, i.e. total size below `2^32`),
`next_memory_pos` equals the sum of `HeaderSize + payload_size` over all
records, the stored index entries are exactly one per 500 appended records —
written precisely when `next_local_offset` becomes a multiple of 500, with
the values one past that record — and they are strictly increasing in
`logical_off`. -/
theorem C5_append_invariants (b now : Nat) (items : List (List Nat × Nat))
    (htot : Brook.totalSize items < 2 ^ 32) :
    ∃ L, Brook.logAppendAll (Brook.freshLog b now) items = .ok L ∧
      L.nextMemoryPos = (items.map (fun pt => Brook.HeaderSize + pt.1.length)).sum ∧
      Brook.indexEntriesOf L.indexBytes =
        (List.range (items.length / 500)).map
          (fun m => ⟨500 * (m + 1), Brook.sizeUpTo items (500 * (m + 1))⟩) ∧
      (Brook.indexEntriesOf L.indexBytes).Pairwise
        (fun e1 e2 => e1.LogicalOff < e2.LogicalOff) := by
  have hN : 24 * items.length ≤ Brook.totalSize items := Brook.length_le_totalSize items
  have hML : 500 * (items.length / 500) ≤ items.length := by
    have := Nat.div_mul_le_self items.length 500
    omega
  have hb : ∀ e ∈ Brook.idxEntries items, e.LogicalOff < 2 ^ 32 ∧ e.MemoryPos < 2 ^ 32 := by
    intro e he
    rw [Brook.idxEntries] at he
    simp only [List.mem_map, List.mem_range] at he
    obtain ⟨m, hm, rfl⟩ := he
    refine ⟨by dsimp only; omega, ?_⟩
    dsimp only
    have := Brook.sizeUpTo_le_total items (500 * (m + 1))
    omega
  have hdecode : Brook.indexEntriesOf (Brook.idxBytes items) = Brook.idxEntries items := by
    rw [Brook.idxBytes]
    exact Brook.indexEntriesOf_flatten _ hb
  refine ⟨_, Brook.logAppendAll_spec b now items, ?_, ?_, ?_⟩
  · dsimp only
    rw [Brook.totalSize]
    congr 1
  · dsimp only
    rw [hdecode, Brook.idxEntries]
  · dsimp only
    rw [hdecode]
    exact Brook.idxEntries_sorted items
/-- Witness for C5 at one concrete record. -/
theorem C5_append_invariants_witness :
    ∃ L, Brook.logAppendAll (Brook.freshLog 5 1) [([9], 2)] = .ok L ∧
      L.nextMemoryPos = (([([9], 2)] : List (List Nat × Nat)).map
        (fun pt => Brook.HeaderSize + pt.1.length)).sum ∧
      Brook.indexEntriesOf L.indexBytes =
        (List.range (([([9], 2)] : List (List Nat × Nat)).length / 500)).map
          (fun m => ⟨500 * (m + 1), Brook.sizeUpTo [([9], 2)] (500 * (m + 1))⟩) ∧
      (Brook.indexEntriesOf L.indexBytes).Pairwise
        (fun e1 e2 => e1.LogicalOff < e2.LogicalOff) :=
  C5_append_invariants 5 1 [([9], 2)] (by decide)

/-! ## C3 -/

/-- C3 evaluates the recovery at the failing input: a base-0 segment holding
exactly 500 complete records (appended cleanly, index entry flushed) is
reopened, and the recovered `next_local_offset` is 1, not 500 — the index's
last entry points at end-of-file, so the recovery scan observes no header
and returns the zero-initialised last offset plus one. -/
theorem C3_recovery_bug :
    ∃ L, Brook.logAppendAll (Brook.freshLog 0 0) (List.replicate 500 ([], 0)) = .ok L ∧
      L.nextOffset = 500 ∧
      ∃ L', Brook.NewLogMediumDurable L.file L.indexBytes 0 9 5 = .ok L' ∧
        L'.nextOffset = 1 := by
  refine ⟨_, Brook.logAppendAll_spec 0 0 _, by dsimp only; rw [List.length_replicate], ?_⟩
  dsimp only
  rw [Brook.NewLogMediumDurable]
  rw [Brook.openLog_layout false 0 9 5 (List.replicate 500 ([], 0))
    (by rw [Brook.totalSize_replicate]; omega)
    (by rw [List.length_replicate]; omega)
    (by rw [List.length_replicate]; omega)]
  refine ⟨_, rfl, ?_⟩
  dsimp only
  rw [if_pos (by rw [List.length_replicate])]

namespace Brook

/-! ## Partition

`segments` is the ordered list of base offsets (the Go `[]Segment` without
the redundant path strings); `closedData` is the model's disk for closed
segments: base offset ↦ (log file bytes, index file bytes).  The directory
path plumbing is not observable.  `newLogNameFromInt`/`toInt` are inverse
for base offsets below `10^15`, so `rotate` computes the new base directly
as `nextOffset + 1`. -/

/-- 24 hours in nanoseconds. -/
def dayNs : Nat := 86400000000000

/-- `newLogNameFromInt`: zero-pad the decimal base offset to 15 digits and
add `.log`. -/
def newLogNameFromInt (n : Nat) : String :=
  String.mk (List.replicate (15 - (Nat.repr n).length) '0') ++ Nat.repr n ++ ".log"

structure PartitionState where
  segments : List Nat
  closedData : List (Nat × (List Nat × List Nat))
  activeLog : LogState
  activeLogName : String
  nextOffset : Nat
deriving Repr

/-- `NewPartition` on an empty directory: create segment 0, open it writable
(empty file, so `nextOffset = 0`), and set `nextOffset = 0 + 0`. -/
def NewPartitionFresh (now : Nat) : PartitionState :=
  { segments := [0], closedData := [], activeLog := freshLog 0 now,
    activeLogName := newLogNameFromInt 0, nextOffset := 0 }

/-- `Partition.rotate`: when the active segment is older than 24 hours or
holds at least 10,000 records, close it (its files become the closed
segment's on-disk data), open a fresh writable segment at base
`nextOffset + 1`, and append it to `segments`. -/
def Partition.rotate (p : PartitionState) (now : Nat) : PartitionState :=
  if now - p.activeLog.createdAt > dayNs ∨ p.activeLog.nextOffset ≥ 10000 then
    { segments := p.segments ++ [p.nextOffset + 1]
      closedData := p.closedData ++
        [(p.activeLog.baseOffset, (p.activeLog.file, p.activeLog.indexBytes))]
      activeLog := freshLog (p.nextOffset + 1) now
      activeLogName := newLogNameFromInt (p.nextOffset + 1)
      nextOffset := p.nextOffset }
  else p

/-- `Partition.Append`: rotate if needed, append to the active log, bump
`nextOffset`. -/
def Partition.Append (p : PartitionState) (data : List Nat) (now : Nat) :
    Except LogErr PartitionState :=
  let p' := Partition.rotate p now
  match Log.Append p'.activeLog data now with
  | .error e => .error e
  | .ok l' => .ok { p' with activeLog := l', nextOffset := p'.nextOffset + 1 }

/-- The on-disk bytes of the segment with the given base offset: the active
log's current (flushed) files, or the closed segment's stored files. -/
def Partition.segmentData (p : PartitionState) (base : Nat) : List Nat × List Nat :=
  if base = p.activeLog.baseOffset then (p.activeLog.file, p.activeLog.indexBytes)
  else ((p.closedData.find? (fun c => c.1 = base)).getD (0, ([], []))).2

/-- `Partition.Read`: binary-search `segments` for the smallest index with
`base_offset > offset`, step back one (clamped at 0), open that segment
read-only, and delegate to `FindRecord`. -/
def Partition.Read (p : PartitionState) (offset : Nat) (now : Nat) : Except LogErr Record :=
  let idx := sortSearch p.segments.length (fun i => decide (offset < p.segments.getD i 0))
  let base := p.segments.getD (idx - 1) 0
  let d := Partition.segmentData p base
  match NewLogReadOnly d.1 d.2 base now now with
  | .error e => .error e
  | .ok l => Log.FindRecord l offset

end Brook

namespace Brook

/-! ## Small `sort.Search` evaluations -/

theorem goSearch_self (f : Nat → Bool) (i : Nat) : goSearch f i i = i := by
  rw [goSearch]
  simp

theorem sortSearch_one_false (f : Nat → Bool) (h0 : f 0 = false) : sortSearch 1 f = 1 := by
  rw [sortSearch, goSearch, dif_pos (by omega : (0 : Nat) < 1)]
  simp only [show (0 + 1) / 2 = 0 from rfl, h0, Bool.false_eq_true, if_false]
  exact goSearch_self f 1

theorem sortSearch_two_ft (f : Nat → Bool) (h0 : f 0 = false) (h1 : f 1 = true) :
    sortSearch 2 f = 1 := by
  rw [sortSearch, goSearch, dif_pos (by omega : (0 : Nat) < 2)]
  simp only [show (0 + 2) / 2 = 1 from rfl, h1, if_true]
  rw [goSearch, dif_pos (by omega : (0 : Nat) < 1)]
  simp only [show (0 + 1) / 2 = 0 from rfl, h0, Bool.false_eq_true, if_false]
  exact goSearch_self f 1

theorem sortSearch_two_ff (f : Nat → Bool) (h1 : f 1 = false) : sortSearch 2 f = 2 := by
  rw [sortSearch, goSearch, dif_pos (by omega : (0 : Nat) < 2)]
  simp only [show (0 + 2) / 2 = 1 from rfl, h1, Bool.false_eq_true, if_false]
  exact goSearch_self f 2

end Brook

/-! ## C10 -/

/-- C10: on a segment with zero records (`next_memory_pos = 0`),
`FindRecord(k)` fails with record-not-found for every `k` (never a
zero-valued record with no error), and `Partition.Read` on a freshly created
partition with no appends fails for every offset. -/
theorem C10_empty_reads_fail (b now k : Nat) :
    Brook.Log.FindRecord (Brook.freshLog b now) k = .error .recordNotFound ∧
    Brook.Partition.Read (Brook.NewPartitionFresh now) k now = .error .recordNotFound := by
  constructor
  · exact Brook.FindRecord_empty _ rfl rfl k
  · rw [Brook.Partition.Read]
    have hss : Brook.sortSearch (Brook.NewPartitionFresh now).segments.length
        (fun i => decide (k < List.getD (Brook.NewPartitionFresh now).segments i 0)) = 1 := by
      show Brook.sortSearch 1 _ = 1
      exact Brook.sortSearch_one_false _ (by simp [Brook.NewPartitionFresh])
    rw [hss]
    have hop : Brook.NewLogReadOnly
        (Brook.Partition.segmentData (Brook.NewPartitionFresh now)
          (List.getD (Brook.NewPartitionFresh now).segments (1 - 1) 0)).1
        (Brook.Partition.segmentData (Brook.NewPartitionFresh now)
          (List.getD (Brook.NewPartitionFresh now).segments (1 - 1) 0)).2
        (List.getD (Brook.NewPartitionFresh now).segments (1 - 1) 0) now now =
        .ok { readOnly := true
              file := []
              indexBytes := []
              nextMemoryPos := 0
              nextOffset := 0
              baseOffset := 0
              createdAt := now } := rfl
    rw [hop]
    exact Brook.FindRecord_empty _ rfl rfl k

namespace Brook

/-! ## The rotation scenario -/

theorem except_bind_ok {ε α β : Type} (a : α) (f : α → Except ε β) :
    (Except.ok a : Except ε α).bind f = f a := rfl

theorem rotate_noop (p : PartitionState) (now : Nat)
    (h1 : ¬ now - p.activeLog.createdAt > dayNs) (h2 : p.activeLog.nextOffset < 10000) :
    Partition.rotate p now = p := by
  rw [Partition.rotate, if_neg]
  rw [not_or]
  exact ⟨h1, by omega⟩

theorem Partition.Append_eq (p : PartitionState) (data : List Nat) (now : Nat) :
    Partition.Append p data now =
      (Log.Append (Partition.rotate p now).activeLog data now).bind
        (fun l' => .ok { Partition.rotate p now with
          activeLog := l'
          nextOffset := (Partition.rotate p now).nextOffset + 1 }) := by
  rw [Partition.Append]
  cases h : Log.Append (Partition.rotate p now).activeLog data now with
  | error e => rfl
  | ok l' => rfl

/-- Append `k` empty payloads to a partition, all at time 0. -/
def partitionAppendN (p : PartitionState) : Nat → Except LogErr PartitionState
  | 0 => .ok p
  | k + 1 =>
    match partitionAppendN p k with
    | .error e => .error e
    | .ok p' => Partition.Append p' [] 0

/-- While fewer than 10,000 records have been appended, the fresh partition
never rotates: one segment at base 0 whose active log is exactly the layout
of the appends. -/
theorem partitionAppendN_spec : ∀ k, k ≤ 10000 →
    partitionAppendN (NewPartitionFresh 0) k = .ok
      { segments := [0]
        closedData := []
        activeLog :=
          { readOnly := false
            file := fileFrom 0 (List.replicate k ([], 0))
            indexBytes := idxBytes (List.replicate k ([], 0))
            nextMemoryPos := totalSize (List.replicate k ([], 0))
            nextOffset := (List.replicate k (([] : List Nat), 0)).length
            baseOffset := 0
            createdAt := 0 }
        activeLogName := newLogNameFromInt 0
        nextOffset := k } := by
  intro k
  induction k with
  | zero => intro _; rfl
  | succ k ih =>
    intro hk
    rw [partitionAppendN, ih (by omega)]
    dsimp only
    rw [Partition.Append_eq]
    rw [rotate_noop _ 0 (by dsimp only; rw [dayNs]; omega)
      (by dsimp only; rw [List.length_replicate]; omega)]
    have h1 := logAppendAll_spec 0 0 (List.replicate (k + 1) (([] : List Nat), 0))
    rw [List.replicate_succ' k (([] : List Nat), 0), logAppendAll_concat,
      logAppendAll_spec 0 0 (List.replicate k (([] : List Nat), 0)), except_bind_ok] at h1
    dsimp only at h1
    dsimp only
    rw [h1, except_bind_ok]
    rw [List.replicate_succ' k (([] : List Nat), 0)]

end Brook

namespace Brook

/-- Looking up the offset one past the last record of a segment holding a
positive multiple of 500 records: the floor search returns the entry written
after the last record, whose `memory_pos` is the end of the file, and the
scan fails immediately. -/
theorem FindRecord_boundary_fails (L : LogState) (items : List (List Nat × Nat))
    (htot : totalSize items < 2 ^ 32) (hdvd : 500 ∣ items.length)
    (hne : items.length ≠ 0)
    (hidx : L.indexBytes = idxBytes items) (hmem : L.nextMemoryPos = totalSize items) :
    Log.FindRecord L items.length = .error .recordNotFound := by
  have hN : 24 * items.length ≤ totalSize items := length_le_totalSize items
  have hML : 500 * (items.length / 500) ≤ items.length := by
    have := Nat.div_mul_le_self items.length 500
    omega
  have h500 : 500 * (items.length / 500) = items.length := by omega
  have hM1 : 1 ≤ items.length / 500 := by omega
  have hb : ∀ e ∈ idxEntries items, e.LogicalOff < 2 ^ 32 ∧ e.MemoryPos < 2 ^ 32 := by
    intro e he
    rw [idxEntries] at he
    simp only [List.mem_map, List.mem_range] at he
    obtain ⟨m, hm, rfl⟩ := he
    refine ⟨by dsimp only; omega, ?_⟩
    dsimp only
    have := sizeUpTo_le_total items (500 * (m + 1))
    omega
  have hN32 : items.length % 2 ^ 32 = items.length := Nat.mod_eq_of_lt (by omega)
  have hfind := FindNearest_sorted (idxEntries items) items.length
    (idxEntries_sorted items) hb
  have hu : upperIdx items.length (idxEntries items) = items.length / 500 := by
    refine least_unique (items.length / 500)
      (fun m => decide (items.length < 500 * (m + 1))) _ _
      ⟨?_, ?_, ?_⟩ ⟨?_, by omega, ?_⟩
    · intro m hm
      have hmM : m < items.length / 500 := by
        have := upperIdx_le items.length (idxEntries items)
        rw [idxEntries_length] at this
        omega
      have := upperIdx_lt items.length (idxEntries items) m hm
      rw [idxEntries_getD items m hmM] at this
      dsimp only at this
      simp only [decide_eq_false_iff_not]
      omega
    · have := upperIdx_le items.length (idxEntries items)
      rw [idxEntries_length] at this
      omega
    · intro hlt
      have := upperIdx_boundary items.length (idxEntries items)
        (by rw [idxEntries_length]; omega)
      rw [idxEntries_getD items _ (by omega)] at this
      dsimp only at this
      simp only [decide_eq_true_eq]
      omega
    · intro m hm
      simp only [decide_eq_false_iff_not]
      omega
    · intro hlt
      omega
  have hspec : findNearestSpec (idxEntries items) items.length =
      ⟨500 * (items.length / 500), sizeUpTo items (500 * (items.length / 500))⟩ := by
    rw [findNearestSpec, hu, if_neg (by omega)]
    rw [idxEntries_getD items _ (by omega)]
    have : items.length / 500 - 1 + 1 = items.length / 500 := by omega
    rw [this]
  rw [Log.FindRecord, hidx, hN32, idxBytes, hfind, hspec]
  dsimp only
  rw [h500, sizeUpTo_all, hmem]
  rw [scanFrom_at_end _ _ _ _ _ (Nat.le_refl _)]

/-- The bytes of the string `"payload"`. -/
def payloadBytes : List Nat := [112, 97, 121, 108, 111, 97, 100]

/-- The C1 scenario: a fresh partition, 10,000 successful appends, then an
append of `"payload"`. -/
def c1Scenario : Except LogErr PartitionState :=
  (partitionAppendN (NewPartitionFresh 0) 10000).bind
    (fun p => Partition.Append p payloadBytes 0)

/-- The partition state the C1 scenario produces. -/
def c1Final : PartitionState :=
  { segments := [0, 10001]
    closedData := [(0, (fileFrom 0 (List.replicate 10000 ([], 0)),
      idxBytes (List.replicate 10000 ([], 0))))]
    activeLog :=
      { readOnly := false
        file := fileFrom 10001 [(payloadBytes, 0)]
        indexBytes := idxBytes [(payloadBytes, 0)]
        nextMemoryPos := totalSize [(payloadBytes, 0)]
        nextOffset := 1
        baseOffset := 10001
        createdAt := 0 }
    activeLogName := newLogNameFromInt 10001
    nextOffset := 10001 }

theorem c1Scenario_spec : c1Scenario = .ok c1Final := by
  rw [c1Scenario, partitionAppendN_spec 10000 (Nat.le_refl 10000), except_bind_ok]
  rw [Partition.Append_eq]
  have hcond : (0 : Nat) -
      ({ readOnly := false
         file := fileFrom 0 (List.replicate 10000 ([], 0))
         indexBytes := idxBytes (List.replicate 10000 ([], 0))
         nextMemoryPos := totalSize (List.replicate 10000 ([], 0))
         nextOffset := (List.replicate 10000 (([] : List Nat), 0)).length
         baseOffset := 0
         createdAt := 0 } : LogState).createdAt > dayNs ∨
      ({ readOnly := false
         file := fileFrom 0 (List.replicate 10000 ([], 0))
         indexBytes := idxBytes (List.replicate 10000 ([], 0))
         nextMemoryPos := totalSize (List.replicate 10000 ([], 0))
         nextOffset := (List.replicate 10000 (([] : List Nat), 0)).length
         baseOffset := 0
         createdAt := 0 } : LogState).nextOffset ≥ 10000 := by
    right
    dsimp only
    rw [List.length_replicate]
  rw [Partition.rotate, if_pos hcond]
  dsimp only
  have h1 := logAppendAll_spec 10001 0 [(payloadBytes, 0)]
  rw [logAppendAll] at h1
  cases happ : Log.Append (freshLog 10001 0) payloadBytes 0 with
  | error e =>
    rw [show Log.Append (freshLog 10001 0) ((payloadBytes, 0) : List Nat × Nat).1
        ((payloadBytes, 0) : List Nat × Nat).2 = Log.Append (freshLog 10001 0) payloadBytes 0
      from rfl, happ] at h1
    exact absurd h1 (by simp)
  | ok l' =>
    rw [show Log.Append (freshLog 10001 0) ((payloadBytes, 0) : List Nat × Nat).1
        ((payloadBytes, 0) : List Nat × Nat).2 = Log.Append (freshLog 10001 0) payloadBytes 0
      from rfl, happ] at h1
    dsimp only at h1
    rw [logAppendAll] at h1
    have hl' := (Except.ok.injEq _ _).mp h1
    rw [except_bind_ok, hl']
    rfl

/-- Reading offset 10,000 from the scenario's final state, generalized over
the closed segment's contents: the floor search routes to the closed base-0
segment, whose 10,000 records occupy offsets 0..9,999 — offset 10,000 was
skipped by rotation — so the lookup fails. -/
theorem c1Read_gap_aux (R : List (List Nat × Nat)) (hlen : R.length = 10000)
    (htot : totalSize R < 2 ^ 32)
    (hsegd : Partition.segmentData c1Final 0 = (fileFrom 0 R, idxBytes R)) :
    Partition.Read c1Final 10000 0 = .error .recordNotFound := by
  rw [Partition.Read]
  have hss : sortSearch c1Final.segments.length
      (fun i => decide (10000 < c1Final.segments.getD i 0)) = 1 :=
    sortSearch_two_ft _ (by decide) (by decide)
  rw [hss]
  have hgd : List.getD c1Final.segments (1 - 1) 0 = 0 := rfl
  rw [hgd, hsegd, NewLogReadOnly]
  dsimp only
  have hdvd : (500 : Nat) ∣ R.length := by
    rw [hlen]
    exact ⟨20, rfl⟩
  have hne : R.length ≠ 0 := by
    rw [hlen]
    decide
  have hb32 : 0 + R.length ≤ 2 ^ 32 := by
    rw [hlen]
    decide
  have hop := openLog_layout true 0 0 0 R htot hb32 hne
  rw [if_pos hdvd] at hop
  rw [hop]
  dsimp only
  have key := FindRecord_boundary_fails
    { readOnly := true
      file := fileFrom 0 R
      indexBytes := idxBytes R
      nextMemoryPos := (fileFrom 0 R).length
      nextOffset := 1
      baseOffset := 0
      createdAt := 0 } R htot hdvd hne rfl (fileFrom_length R 0)
  rw [hlen] at key
  exact key

/-- Reading offset 10,000 from the scenario's final state fails: offset
10,000 is the gap the rotation's `nextOffset + 1` base left behind. -/
theorem c1Read_gap : Partition.Read c1Final 10000 0 = .error .recordNotFound := by
  apply c1Read_gap_aux (List.replicate 10000 ([], 0))
  · rw [List.length_replicate]
  · rw [totalSize_replicate]
    decide
  · rfl

/-- Reading offset 10,001 from the scenario's final state: the floor search
routes to the active base-10,001 segment, reopened read-only, and the scan
finds the `"payload"` record at global offset 10,001. -/
theorem c1Read_payload : Partition.Read c1Final 10001 0 =
    .ok ⟨⟨10001, 7, 0⟩, payloadBytes⟩ := by
  rw [Partition.Read]
  have hss : sortSearch c1Final.segments.length
      (fun i => decide (10001 < c1Final.segments.getD i 0)) = 2 :=
    sortSearch_two_ff _ (by decide)
  rw [hss]
  have hgd : List.getD c1Final.segments (2 - 1) 0 = 10001 := rfl
  rw [hgd]
  have hseg : Partition.segmentData c1Final 10001 =
      (fileFrom 10001 [(payloadBytes, 0)], idxBytes [(payloadBytes, 0)]) := rfl
  rw [hseg, NewLogReadOnly]
  dsimp only
  have htot : totalSize [((payloadBytes : List Nat), (0 : Nat))] < 2 ^ 32 := by decide
  have hb32 : 10001 + ([((payloadBytes : List Nat), (0 : Nat))]).length ≤ 2 ^ 32 := by decide
  have hne : ([((payloadBytes : List Nat), (0 : Nat))]).length ≠ 0 := by decide
  have hop := openLog_layout true 10001 0 0 [(payloadBytes, 0)] htot hb32 hne
  rw [hop]
  dsimp only
  have key := FindRecord_small
    { readOnly := true
      file := fileFrom 10001 [(payloadBytes, 0)]
      indexBytes := idxBytes [(payloadBytes, 0)]
      nextMemoryPos := (fileFrom 10001 [(payloadBytes, 0)]).length
      nextOffset := if 500 ∣ ([((payloadBytes : List Nat), (0 : Nat))]).length then 1
        else 10001 + ([((payloadBytes : List Nat), (0 : Nat))]).length
      baseOffset := 10001
      createdAt := 0 }
    [(payloadBytes, 0)] 10001 0 htot hb32 (by decide) (by decide) rfl rfl
    (fileFrom_length [(payloadBytes, 0)] 10001)
  exact key

theorem c1Final_name : c1Final.activeLogName = "000000000010001.log" := rfl

end Brook

/-! ## C1 -/

/-- C1 (counterexample part): in the rotation scenario — a fresh partition,
10,000 successful appends, then an append of `"payload"` — the partition does
end up with segments at bases 0 and 10,001 and active log name
`"000000000010001.log"`, but `Partition.Read(10000)` does NOT return the
`"payload"` record: it fails with record-not-found, because rotation opened
the new segment at base `nextOffset + 1 = 10001`, leaving offset 10,000
unassigned. -/
theorem C1_counterexample : ∃ P, Brook.c1Scenario = .ok P ∧
    P.segments = [0, 10001] ∧
    P.activeLogName = "000000000010001.log" ∧
    Brook.Partition.Read P 10000 0 = .error .recordNotFound :=
  ⟨Brook.c1Final, Brook.c1Scenario_spec, rfl, Brook.c1Final_name, Brook.c1Read_gap⟩

/-- C1 (amended): in the rotation scenario the 10,001st append triggers
rotation, after which the partition has exactly two segments with base
offsets 0 and 10001, the active log file name is `"000000000010001.log"`,
and the `"payload"` record lands at global offset 10001: `Read(10001)`
returns it, while `Read(10000)` — the offset the claim names — fails with
record-not-found, offset 10,000 being the gap left by the `nextOffset + 1`
rotation base. -/
theorem C1_rotation_scenario : ∃ P, Brook.c1Scenario = .ok P ∧
    P.segments = [0, 10001] ∧
    P.activeLogName = "000000000010001.log" ∧
    P.nextOffset = 10001 ∧
    Brook.Partition.Read P 10001 0 =
      .ok ⟨⟨10001, 7, 0⟩, Brook.payloadBytes⟩ ∧
    Brook.Partition.Read P 10000 0 = .error .recordNotFound :=
  ⟨Brook.c1Final, Brook.c1Scenario_spec, rfl, Brook.c1Final_name, rfl,
    Brook.c1Read_payload, Brook.c1Read_gap⟩

namespace Brook

/-! ## AsyncWriter

The async writer's observable state after the dust settles: whether `done`
has been closed, and the buffers sitting in its `queue` channel (capacity
10). Before `Close`, the worker goroutine is alive and eventually drains the
queue; after `Close` has returned, the worker has exited, so enqueued
buffers are never consumed. `Write` and `Flush` are Go `select`s: when more
than one case is ready the runtime picks one nondeterministically, which we
expose as an explicit scheduler choice `pickSend`. -/

inductive AwErr where
  | writeAfterClose
deriving DecidableEq, Repr

structure AsyncWriter where
  closed : Bool
  queue : List (List Nat)
deriving DecidableEq, Repr

/-- `NewAsyncWriterSize`: open writer, empty queue. -/
def NewAsyncWriter : AsyncWriter := { closed := false, queue := [] }

/-- The `queue` channel's capacity. -/
def queueCap : Nat := 10

/-- `AsyncWriter.Write`: a `select` between sending the buffer on `queue`
and observing `done`. Before close only the send case can fire (the worker
keeps the channel drained, so the send eventually proceeds). After close
both cases may be ready: the send case iff the queue has spare capacity, in
which case the scheduler's choice `pickSend` decides; the `done` case
returns `(0, ErrWriteAfterClose)`. -/
def AsyncWriter.Write (aw : AsyncWriter) (b : List Nat) (pickSend : Bool) :
    AsyncWriter × Nat × Option AwErr :=
  if aw.closed = true then
    if aw.queue.length < queueCap ∧ pickSend = true then
      ({ aw with queue := aw.queue ++ [b] }, b.length, none)
    else (aw, 0, some .writeAfterClose)
  else
    ({ aw with queue := aw.queue ++ [b] }, b.length, none)

/-- `AsyncWriter.Flush`: a `select` between sending a response channel on
the unbuffered `flushReq` and observing `done`. Before close the live
worker receives the request and answers with the flush result (no error in
this model); after close no receiver exists, so only the `done` case is
ready and the call fails. -/
def AsyncWriter.Flush (aw : AsyncWriter) : Option AwErr :=
  if aw.closed = true then some .writeAfterClose else none

/-- `AsyncWriter.Close`: `once.Do(close(done))`, then wait for the worker,
which drains the queue and flushes before exiting. A second close finds the
`once` spent and returns immediately. Always returns `nil`. -/
def AsyncWriter.Close (aw : AsyncWriter) : AsyncWriter × Option AwErr :=
  if aw.closed = true then (aw, none)
  else ({ closed := true, queue := [] }, none)

end Brook

/-! ## C7 -/

/-- C7 (counterexample): after `Close()` has returned, a `Write` need not
fail with `ErrWriteAfterClose`: the freshly closed writer's queue is empty,
so the `select`'s send case is also ready, and when the scheduler picks it
the buffer is silently enqueued — never to be consumed — and `Write`
reports all 3 bytes accepted with no error. -/
theorem C7_counterexample : ∃ aw : Brook.AsyncWriter,
    (Brook.AsyncWriter.Close Brook.NewAsyncWriter).1 = aw ∧
    aw.closed = true ∧
    Brook.AsyncWriter.Write aw [1, 2, 3] true =
      ({ closed := true, queue := [[1, 2, 3]] }, 3, none) :=
  ⟨{ closed := true, queue := [] }, rfl, rfl, rfl⟩

/-- C7 (amended): once the writer is closed, `Write` never blocks and
either returns `(0, ErrWriteAfterClose)` leaving the writer unchanged, or —
only when the queue has spare capacity and the scheduler picks the send
case — silently enqueues the buffer and reports it accepted; `Flush` always
fails with `ErrWriteAfterClose`; and `Close` is idempotent: a second
`Close` returns without error and without further effect. -/
theorem C7_close_semantics (aw : Brook.AsyncWriter) (b : List Nat) (pick : Bool)
    (hc : aw.closed = true) :
    (Brook.AsyncWriter.Write aw b pick = (aw, 0, some .writeAfterClose) ∨
      (aw.queue.length < Brook.queueCap ∧ pick = true ∧
        Brook.AsyncWriter.Write aw b pick =
          ({ aw with queue := aw.queue ++ [b] }, b.length, none))) ∧
    Brook.AsyncWriter.Flush aw = some .writeAfterClose ∧
    (∀ a : Brook.AsyncWriter,
      Brook.AsyncWriter.Close (Brook.AsyncWriter.Close a).1 =
        ((Brook.AsyncWriter.Close a).1, none)) := by
  refine ⟨?_, ?_, ?_⟩
  · rw [Brook.AsyncWriter.Write, if_pos hc]
    by_cases hq : aw.queue.length < Brook.queueCap ∧ pick = true
    · right
      exact ⟨hq.1, hq.2, by rw [if_pos hq]⟩
    · left
      rw [if_neg hq]
  · rw [Brook.AsyncWriter.Flush, if_pos hc]
  · intro a
    by_cases h : a.closed = true
    · simp [Brook.AsyncWriter.Close, h]
    · simp [Brook.AsyncWriter.Close, h]

/-- Witness for C7: the instantiation at a concrete closed writer with a
full queue check forced to the error branch. -/
theorem C7_close_semantics_witness :
    (({ closed := true, queue := [] } : Brook.AsyncWriter).closed = true) ∧
    ((Brook.AsyncWriter.Write { closed := true, queue := [] } [5] false =
        ({ closed := true, queue := [] }, 0, some .writeAfterClose) ∨
      (({ closed := true, queue := [] } : Brook.AsyncWriter).queue.length <
          Brook.queueCap ∧ false = true ∧
        Brook.AsyncWriter.Write { closed := true, queue := [] } [5] false =
          ({ closed := true, queue := [[5]] }, 1, none))) ∧
    Brook.AsyncWriter.Flush { closed := true, queue := [] } =
      some .writeAfterClose ∧
    (∀ a : Brook.AsyncWriter,
      Brook.AsyncWriter.Close (Brook.AsyncWriter.Close a).1 =
        ((Brook.AsyncWriter.Close a).1, none))) :=
  ⟨rfl, C7_close_semantics { closed := true, queue := [] } [5] false rfl⟩
